import Mathlib

/-!
Verification development for the Unlambda interpreter (src/unlambda.c).

The development contains two embeddings of the interpreter, both translated
from the C source:

* a tree-level embedding of the parser (`parse`) and of the evaluator
  (`step` / `run`), in which a heap cell is an inductive tree.  The
  evaluator of the C program never mutates an existing cell (only the
  garbage collector does, and a collection preserves the abstract cell
  graph), so the tree-level machine computes exactly the observable
  behaviour (output bytes, input consumption, termination, exit code) of
  `run()`;

* an address-level embedding of the storage manager (`copy_cell`, `mark`,
  `major_gc`, `gc_run`) and of the primitive-application cases of `run()`
  that allocate (`applyPrim`), in which the heap is a total function from
  natural-number addresses to cells, mirroring the C pointer graph.
  The two young semispaces live at addresses `[0, YOUNG_SIZE)` and
  `[YOUNG_SIZE, 2*YOUNG_SIZE)`; old-generation chunks are handed out from
  `nextFresh` upward, mirroring `malloc`.  Loops whose termination depends
  on heap contents take an explicit fuel argument; running out of fuel is
  reported as a distinct outcome (`GCErr.outOfFuel`), never silently.
  Fields that the C code leaves unassigned (for example `ch` of
  `new_cell1`) are modelled as 0 at tree level and as the stale previous
  contents at address level, matching uninitialised reuse.

`errexit` (src/unlambda.c lines 25-31) prints to stderr and calls
`exit(1)`; every error constructor in this file models one `errexit`
call site (or a null-pointer dereference that would crash the process),
and the functions `perrExit` / `runExit` record the resulting process
exit code.
-/

namespace Unl

/-- Cell type tags, from the `CellType` enum of src/unlambda.c. -/
inductive CellType where
  | I | DOT | K1 | K | S2 | B2 | C2 | V2 | S1 | B1 | T1 | S | V
  | D1 | D | CONT | C | E | AT | QUES | PIPE | AP
  | EVAL_RIGHT | EVAL_RIGHT_S | APPLY | APPLY_T | EXIT
  | COPIED
deriving DecidableEq

/-- Tree-level heap cell: tag, character payload, left and right child.
Null pointers are `none`. -/
inductive Cell where
  | mk (t : CellType) (ch : Nat) (l : Option Cell) (r : Option Cell)

/-- Tag of a tree cell. -/
def Cell.t : Cell → CellType
  | .mk t _ _ _ => t

/-- Character payload of a tree cell. -/
def Cell.ch : Cell → Nat
  | .mk _ ch _ _ => ch

/-- Left child of a tree cell. -/
def Cell.l : Cell → Option Cell
  | .mk _ _ l _ => l

/-- Right child of a tree cell. -/
def Cell.r : Cell → Option Cell
  | .mk _ _ _ r => r

/-- AGE_MAX from src/unlambda.c line 54. -/
def AGE_MAX : Nat := 2

/-- YOUNG_SIZE from src/unlambda.c line 52. -/
def YOUNG_SIZE : Nat := 256 * 1024

/-- HEAP_CHUNK_SIZE from src/unlambda.c line 53. -/
def HEAP_CHUNK_SIZE : Nat := 256 * 1024 - 1

-- Parser ---------------------------------------------------------------

/-- Allocation event: one call of `allocate_from_old` records the tag and
the age the allocated cell is given (`c->age = AGE_MAX + 1`, line 301). -/
structure Alloc where
  t : CellType
  age : Nat
deriving DecidableEq

/-- Parse errors: `errexit("unexpected EOF\n")` and
`errexit("unexpected character %c\n", ch)` in `parse`, plus an explicit
out-of-fuel marker for the fueled loop (never returned at sufficient
fuel). -/
inductive PErr where
  | unexpectedEOF
  | unexpectedChar (b : Nat)
  | fuelOut
deriving DecidableEq

/-- Exit code of the process after a parse error: `errexit` always calls
`exit(1)`. -/
def perrExit (_ : PErr) : Nat := 1

/-- C `isspace` in the default locale, on a byte. -/
def isSpace (b : Nat) : Bool :=
  b = 32 || b = 9 || b = 10 || b = 11 || b = 12 || b = 13

/-- Reads the next significant byte, skipping whitespace and `#` line
comments, following the `do { ch = fgetc(fp); if (ch == '#') ... } while
(isspace(ch))` loop of `parse` (lines 322-329).  The nested comment loop
is flattened into the flag: while the flag is set, bytes are discarded
up to and including the newline (which, being whitespace, sends the C
loop around again).  Returns `none` when EOF is reached. -/
def skipToToken : Bool → List Nat → Option (Nat × List Nat)
  | _, [] => none
  | true, b :: rest =>
    if b = 10 then skipToToken false rest else skipToToken true rest
  | false, b :: rest =>
    if b = 35 then skipToToken true rest
    else if isSpace b then skipToToken false rest
    else some (b, rest)

/-- Next significant byte of the input and the remaining bytes. -/
def nextToken (bs : List Nat) : Option (Nat × List Nat) :=
  skipToToken false bs

/-- Shared atomic cells pre-allocated by the parser (lines 309-317).
At tree level a singleton is just its value; sharing is tracked by the
allocation log. -/
def preCell (t : CellType) : Cell := .mk t 0 none none

/-- Bytes that denote an atom of the grammar (the letters in both cases,
`@` and `|`): exactly the single-byte cases of the parser's switch that
complete an expression without reading further input. -/
def isAtomB (b : Nat) : Bool :=
  b = 105 || b = 73 || b = 107 || b = 75 || b = 115 || b = 83 ||
  b = 118 || b = 86 || b = 100 || b = 68 || b = 99 || b = 67 ||
  b = 101 || b = 69 || b = 114 || b = 82 || b = 64 || b = 124

/-- The nine shared atomic combinator tags of claim C3. -/
def isAtomicTag : CellType → Bool
  | .I | .K | .S | .V | .D | .C | .E | .AT | .PIPE => true
  | _ => false

/-- The allocation log entries for the nine pre-allocated atomic cells,
in source order (lines 309-317). -/
def initLog : List Alloc :=
  [⟨.I, AGE_MAX + 1⟩, ⟨.K, AGE_MAX + 1⟩, ⟨.S, AGE_MAX + 1⟩,
   ⟨.V, AGE_MAX + 1⟩, ⟨.D, AGE_MAX + 1⟩, ⟨.C, AGE_MAX + 1⟩,
   ⟨.E, AGE_MAX + 1⟩, ⟨.AT, AGE_MAX + 1⟩, ⟨.PIPE, AGE_MAX + 1⟩]

/-- Translates one non-backtick token of the `switch (ch)` at lines
330-359: an atom letter yields the shared cell (no allocation), `r`
allocates a fresh DOT cell with ch = 10, `.` and `?` consume one more
byte and allocate a DOT or QUES cell, anything else is a fatal error. -/
def tokenCell (b : Nat) (rest : List Nat) :
    Except PErr (Cell × List Nat × List Alloc) :=
  if b = 105 || b = 73 then .ok (preCell .I, rest, [])
  else if b = 107 || b = 75 then .ok (preCell .K, rest, [])
  else if b = 115 || b = 83 then .ok (preCell .S, rest, [])
  else if b = 118 || b = 86 then .ok (preCell .V, rest, [])
  else if b = 100 || b = 68 then .ok (preCell .D, rest, [])
  else if b = 99 || b = 67 then .ok (preCell .C, rest, [])
  else if b = 101 || b = 69 then .ok (preCell .E, rest, [])
  else if b = 114 || b = 82 then
    .ok (.mk .DOT 10 none none, rest, [⟨.DOT, AGE_MAX + 1⟩])
  else if b = 64 then .ok (preCell .AT, rest, [])
  else if b = 124 then .ok (preCell .PIPE, rest, [])
  else if b = 46 || b = 63 then
    match rest with
    | [] => .error .unexpectedEOF
    | c :: rest2 =>
      .ok (.mk (if b = 46 then .DOT else .QUES) c none none, rest2,
           [⟨if b = 46 then .DOT else .QUES, AGE_MAX + 1⟩])
  else .error (.unexpectedChar b)

/-- The stack-resolution loop of `parse` (lines 360-369): a stack entry is
the already-filled left child of a pending application (`none` if the
left slot is still empty).  A completed expression either fills the
topmost empty slot (`.inr` with the new stack) or, if every slot is
filled, completes the whole program (`.inl`). -/
def resolveStack (e : Cell) : List (Option Cell) → Cell ⊕ List (Option Cell)
  | [] => .inl e
  | none :: rest => .inr (some e :: rest)
  | some lc :: rest => resolveStack (.mk .AP 0 (some lc) (some e)) rest

/-- The `do { ... } while (stack)` loop of `parse` (lines 321-370), with
explicit fuel (each iteration consumes at least one input byte, so
`length + 1` fuel always suffices). -/
def parseLoop : Nat → List Nat → List (Option Cell) → List Alloc →
    Except PErr (Cell × List Nat × List Alloc)
  | 0, _, _, _ => .error .fuelOut
  | fuel + 1, bs, stack, log =>
    match nextToken bs with
    | none => .error .unexpectedEOF
    | some (b, rest) =>
      if b = 96 then
        parseLoop fuel rest (none :: stack) (log ++ [⟨.AP, AGE_MAX + 1⟩])
      else
        match tokenCell b rest with
        | .error e => .error e
        | .ok (e, rest2, ev) =>
          match resolveStack e stack with
          | .inl done => .ok (done, rest2, log ++ ev)
          | .inr stack2 => parseLoop fuel rest2 stack2 (log ++ ev)

/-- The parser `parse` (lines 308-372): pre-allocates the nine shared
atomic cells, then runs the token loop.  Returns the program tree, the
unconsumed input, and the allocation log. -/
def parse (bs : List Nat) : Except PErr (Cell × List Nat × List Alloc) :=
  parseLoop (bs.length + 1) bs [] initLog

-- Spec-side parser characterisation ------------------------------------

/-- Bytes of the grammar alphabet (spec section 4.2): backtick, the atom
letters in both cases, `.`, `?`, `#`, and whitespace.  Used to state what
"a byte outside the grammar" means in claim C8. -/
def grammarByte (b : Nat) : Bool :=
  b = 96 || b = 105 || b = 73 || b = 107 || b = 75 || b = 115 || b = 83 ||
  b = 118 || b = 86 || b = 100 || b = 68 || b = 99 || b = 67 ||
  b = 101 || b = 69 || b = 114 || b = 82 || b = 64 || b = 124 ||
  b = 46 || b = 63 || b = 35 || isSpace b

/-- Spec-side completeness scanner, following the spec's wording "EOF in
the middle of an expression": `owed` counts how many complete
expressions are still owed (a backtick increases the count by one, an
atom discharges one).  Returns `true` exactly when the input begins with
one complete expression of the grammar. -/
def scanOwed : Nat → Nat → List Nat → Bool
  | _, 0, _ => true
  | 0, _ + 1, _ => false
  | fuel + 1, owed + 1, bs =>
    match nextToken bs with
    | none => false
    | some (b, rest) =>
      if b = 96 then scanOwed fuel (owed + 2) rest
      else if isAtomB b then scanOwed fuel owed rest
      else if b = 46 || b = 63 then
        match rest with
        | [] => false
        | _ :: rest2 => scanOwed fuel owed rest2
      else false

/-- Whether the byte stream begins with one complete expression of the
Unlambda grammar. -/
def completes (bs : List Nat) : Bool := scanOwed (bs.length + 1) 1 bs

-- Evaluator (tree level) -----------------------------------------------

/-- Machine state of `run()` (lines 404-411): the registers of the
abstract machine plus the input stream and accumulated output bytes.
`current_ch = none` models the C sentinel `EOF`. -/
structure MState where
  current_ch : Option Nat
  input : List Nat
  output : List Nat
  task : CellType
  task_val : Option Cell
  next_cont : Option Cell
  val : Option Cell

/-- Control position in `run()`: the dispatch switch, the `eval` label, or
the `apply` label with the operator register loaded. -/
inductive Phase where
  | dispatchP
  | evalP
  | applyP (op : Cell)

/-- Result of one machine step: continue, normal return from `run` (exit
code 0), or a fatal error / crash (modelling `errexit` with exit code 1,
or a null-pointer dereference). -/
inductive StepRes where
  | next (p : Phase) (s : MState)
  | halted (s : MState)
  | failed (s : MState)

/-- PUSHCONT macro (line 401): allocate a frame holding the current task,
continuation and task value, then load the new task and task value. -/
def pushCont (st : MState) (t : CellType) (v : Option Cell) : MState :=
  { st with
    next_cont := some (.mk st.task 0 st.next_cont st.task_val)
    task := t
    task_val := v }

/-- POPCONT macro (line 402): restore task, task value and continuation
from the head frame; `none` when `next_cont` is null (a crash in C). -/
def popCont (st : MState) : Option MState :=
  match st.next_cont with
  | none => none
  | some (.mk t _ l r) =>
    some { st with task := t, task_val := r, next_cont := l }

/-- The `eval` label (lines 462-474): descend the application spine,
pushing an EVAL_RIGHT frame per application node.  `none` models the
crash on a null operator subtree.  The GC safe point inside the loop is
elided: a collection preserves the abstract cell graph. -/
def evalSpine (st : MState) : Cell → Option MState
  | .mk .AP _ l r =>
    let st1 := pushCont st .EVAL_RIGHT r
    match l with
    | none => none
    | some c => evalSpine st1 c
  | c => some { st with val := some c }

/-- The `apply` label (lines 475-585): apply operator `op` to the value
register.  The GC safe point at entry is elided (see `evalSpine`). -/
def applyStep (op : Cell) (st : MState) : StepRes :=
  match op.t with
  | .I => .next .dispatchP st
  | .DOT => .next .dispatchP { st with output := st.output ++ [op.ch] }
  | .K1 => .next .dispatchP { st with val := op.l }
  | .K =>
    .next .dispatchP { st with val := some (.mk .K1 0 st.val none) }
  | .S2 =>
    let e2 : Cell := .mk .AP 0 op.r st.val
    let st1 := pushCont st .EVAL_RIGHT_S (some e2)
    match op.l with
    | none => .failed st1
    | some opc => .next (.applyP opc) st1
  | .B2 =>
    match op.l with
    | none => .failed st
    | some w =>
      if w.t = .D then
        let e2 : Cell := .mk .AP 0 op.r st.val
        .next .dispatchP { st with val := some (.mk .D1 0 (some e2) none) }
      else
        let st1 := pushCont st .APPLY op.l
        match op.r with
        | none => .failed st1
        | some opc => .next (.applyP opc) st1
  | .C2 =>
    let st1 := pushCont st .APPLY_T op.r
    match op.l with
    | none => .failed st1
    | some opc => .next (.applyP opc) st1
  | .V2 =>
    let v := op.l
    let st1 := pushCont st .APPLY_T op.r
    match st1.val with
    | none => .failed st1
    | some opc => .next (.applyP opc) { st1 with val := v }
  | .S1 =>
    match st.val with
    | none => .failed st
    | some v =>
      if v.t = .K1 then
        match op.l with
        | none => .failed st
        | some w =>
          if w.t = .I then
            .next .dispatchP { st with val := some (.mk .T1 0 v.l none) }
          else if w.t = .T1 then
            .next .dispatchP { st with val := some (.mk .V2 0 w.l v.l) }
          else
            .next .dispatchP { st with val := some (.mk .C2 0 op.l v.l) }
      else
        .next .dispatchP { st with val := some (.mk .S2 0 op.l (some v)) }
  | .B1 =>
    .next .dispatchP { st with val := some (.mk .B2 0 op.l st.val) }
  | .T1 =>
    match st.val with
    | none => .failed st
    | some opc => .next (.applyP opc) { st with val := op.l }
  | .S =>
    match st.val with
    | none => .failed st
    | some v =>
      if v.t = .K1 then
        .next .dispatchP { st with val := some (.mk .B1 0 v.l none) }
      else
        .next .dispatchP { st with val := some (.mk .S1 0 (some v) none) }
  | .V => .next .dispatchP { st with val := some op }
  | .D1 =>
    let st1 := pushCont st .APPLY_T st.val
    .next .evalP { st1 with val := op.l }
  | .D =>
    .next .dispatchP { st with val := some (.mk .D1 0 st.val none) }
  | .CONT =>
    match popCont { st with next_cont := op.l } with
    | none => .failed st
    | some st2 => .next .dispatchP st2
  | .C =>
    let st1 := pushCont st .APPLY st.val
    .next .dispatchP { st1 with val := some (.mk .CONT 0 st1.next_cont none) }
  | .E => .next .dispatchP { st with task := .EXIT }
  | .AT =>
    let ch2 := st.input.head?
    let st1 := { st with current_ch := ch2, input := st.input.tail }
    let st2 := pushCont st1 .APPLY st1.val
    .next .dispatchP
      { st2 with val := some (.mk (if ch2 = none then .V else .I) 0 none none) }
  | .QUES =>
    let st1 := pushCont st .APPLY st.val
    .next .dispatchP
      { st1 with
        val := some (.mk (if st.current_ch = some op.ch then .I else .V) 0
          none none) }
  | .PIPE =>
    let st1 := pushCont st .APPLY st.val
    .next .dispatchP
      { st1 with
        val := some (match st.current_ch with
          | none => .mk .V 255 none none
          | some c => .mk .DOT (c % 256) none none) }
  | _ => .failed st

/-- One step of the `run()` machine from a control position. -/
def step : Phase → MState → StepRes
  | .dispatchP, st =>
    match st.task with
    | .EVAL_RIGHT =>
      match st.val with
      | none => .failed st
      | some v =>
        if v.t = .D then
          match popCont { st with val := st.task_val } with
          | none => .failed st
          | some st2 => .next (.applyP v) st2
        else
          .next .evalP
            { st with
              task := .APPLY
              task_val := some v
              val := st.task_val }
    | .EVAL_RIGHT_S =>
      match st.val with
      | none => .failed st
      | some v =>
        if v.t = .D then
          match popCont { st with val := st.task_val } with
          | none => .failed st
          | some st2 => .next (.applyP v) st2
        else
          match st.task_val with
          | none => .failed st
          | some (.mk _ _ rl rr) =>
            match rl with
            | none => .failed st
            | some opc =>
              .next (.applyP opc)
                { st with task := .APPLY, task_val := some v, val := rr }
    | .APPLY =>
      match st.task_val with
      | none => .failed st
      | some opc =>
        match popCont st with
        | none => .failed st
        | some st2 => .next (.applyP opc) st2
    | .APPLY_T =>
      match st.val with
      | none => .failed st
      | some opc =>
        match popCont { st with val := st.task_val } with
        | none => .failed st
        | some st2 => .next (.applyP opc) st2
    | .EXIT => .halted st
    | _ => .failed st
  | .evalP, st =>
    match st.val with
    | none => .failed st
    | some c =>
      match evalSpine st c with
      | none => .failed st
      | some st2 => .next .dispatchP st2
  | .applyP op, st => applyStep op st

/-- Result of running the machine with fuel. -/
inductive RunRes where
  | halted (s : MState)
  | failed (s : MState)
  | stepsOut

/-- Iterate `step` with fuel. -/
def run : Nat → Phase → MState → RunRes
  | 0, _, _ => .stepsOut
  | fuel + 1, p, st =>
    match step p st with
    | .next p2 st2 => run fuel p2 st2
    | .halted s => .halted s
    | .failed s => .failed s

/-- Initial machine state of `run(val)` with program `tree` and stdin
`input` (lines 404-412): task EXIT, empty continuation, entry at `eval`. -/
def initState (tree : Cell) (input : List Nat) : MState :=
  { current_ch := none
    input := input
    output := []
    task := .EXIT
    task_val := none
    next_cont := none
    val := some tree }

/-- Whole-interpreter observable behaviour: parse then run; result is
`some (exit code, output bytes)`, or `none` when the fuel ran out. -/
def interpret (fuel : Nat) (bs input : List Nat) : Option (Nat × List Nat) :=
  match parse bs with
  | .error _ => some (1, [])
  | .ok (tree, _, _) =>
    match run fuel .evalP (initState tree input) with
    | .halted st => some (0, st.output)
    | .failed st => some (1, st.output)
    | .stepsOut => none

-- Command-line argument handling ---------------------------------------

/-- Outcome of `main`'s argument loop (lines 599-614): proceed to parse
and run, print help / version and exit 0, or reject a bad option with
exit code 1. -/
inductive ArgOutcome where
  | runProg (prog : Option (List Nat)) (verbosity : Nat)
  | helpExit (code : Nat)
  | versionExit (code : Nat)
  | badOption (arg : List Nat) (code : Nat)
deriving DecidableEq

/-- C `isdigit` on a byte. -/
def isDigit (b : Nat) : Bool := 48 ≤ b && b ≤ 57

/-- The argument loop of `main` (lines 599-614).  An argument is a byte
list; indexing past the end yields 0, modelling the C NUL terminator. -/
def argsLoop : List (List Nat) → Option (List Nat) → Nat → ArgOutcome
  | [], prog, verb => .runProg prog verb
  | a :: rest, prog, verb =>
    if a.getD 0 0 = 45 && a.getD 1 0 = 118 && isDigit (a.getD 2 0) then
      argsLoop rest prog (a.getD 2 0 - 48)
    else if a = [45, 104] then .helpExit 0
    else if a = [45, 118] then .versionExit 0
    else if a.getD 0 0 = 45 then .badOption a 1
    else argsLoop rest (some a) verb

-- Storage manager (address level) --------------------------------------

/-- Address-level heap cell, one `struct _Cell` (lines 44-50).  Children
are addresses (`none` for NULL). -/
structure GCell where
  t : CellType
  ch : Nat
  age : Nat
  marked : Bool
  l : Option Nat
  r : Option Nat
deriving DecidableEq

/-- Pointwise heap update, modelling a store through a cell pointer. -/
def upd (h : Nat → GCell) (a : Nat) (c : GCell) : Nat → GCell :=
  fun x => if x = a then c else h x

/-- Errors and abnormal outcomes of the storage manager: `copyNullDeref`
is the null-pointer dereference `free_list = free_list->l` in
`copy_cell` when `free_list` is NULL; `markNullDeref` the dereference of
a NULL forwarding target in `mark`; `scanNullDeref` the same in the scan
loop of `gc_run`; `bugCopied` the `errexit("[BUG] cannot happen")` at
line 253; `outOfFuel` marks fuel exhaustion of a fueled loop. -/
inductive GCErr where
  | copyNullDeref
  | markNullDeref
  | scanNullDeref
  | bugCopied
  | outOfFuel
deriving DecidableEq

/-- Interpreter-global storage state (lines 57-72), with the two young
arrays placed at addresses `[0, YOUNG_SIZE)` and
`[YOUNG_SIZE, 2*YOUNG_SIZE)`.  `oldCells` lists the addresses of all
old-generation chunk cells in sweep order (newest chunk first, cells
ascending); `nextFresh` is where `malloc` hands out the next chunk.
`events` is a ghost log: one entry per `if (!free_list) major_gc(...)`
check site in `gc_run`, recording whether `free_list` was empty there
and whether the cell about to be copied needs promotion. -/
structure GCState where
  heap : Nat → GCell
  free_list : Option Nat
  free_ptr : Nat
  young_area_end : Nat
  next_young_area : Nat
  oldCells : List Nat
  nextFresh : Nat
  major_gc_count : Nat
  minor_gc_count : Nat
  events : List (Bool × Bool)

/-- Tags whose cells have exactly one child (`l`), as listed in the
unary case groups of `mark` (lines 137-142) and of the scan loop
(lines 255-260). -/
def isUnaryTag : CellType → Bool
  | .K1 | .S1 | .B1 | .D1 | .T1 | .CONT => true
  | _ => false

/-- Tags whose cells have two children (`l` and `r`), as listed in the
binary case groups of `mark` (lines 145-153) and of the scan loop
(lines 263-271). -/
def isBinaryTag : CellType → Bool
  | .AP | .S2 | .B2 | .C2 | .V2 | .EVAL_RIGHT | .EVAL_RIGHT_S
  | .APPLY | .APPLY_T => true
  | _ => false

/-- Child references of a cell, per its tag's field set. -/
def childRefs (c : GCell) : List (Option Nat) :=
  if isUnaryTag c.t then [c.l]
  else if isBinaryTag c.t then [c.l, c.r]
  else []

/-- Follows one COPIED forwarding: the cell `mark` actually marks when it
processes a reference to address `a`. -/
def targetOf (h : Nat → GCell) (a : Nat) : Option Nat :=
  if (h a).t = .COPIED then (h a).l else some a

/-- The worklist loop of `mark` (lines 118-168).  `c` is the cell the
`goto top` chain is currently at (the popped stack entry, or a child
reached by `c = c->l`); `stk` is the explicit mark stack (head = top).
Each iteration consumes one unit of fuel. -/
def markGo : Nat → Option Nat → (Nat → GCell) → List (Option Nat) →
    ((Nat → GCell) × Option GCErr)
  | 0, _, h, _ => (h, some .outOfFuel)
  | fuel + 1, none, h, stk =>
    match stk with
    | [] => (h, none)
    | c2 :: rest => markGo fuel c2 h rest
  | fuel + 1, some a, h, stk =>
    if (h a).marked then
      match stk with
      | [] => (h, none)
      | c2 :: rest => markGo fuel c2 h rest
    else
      match targetOf h a with
      | none => (h, some .markNullDeref)
      | some tg =>
        let h1 := upd h tg { h tg with marked := true }
        if isUnaryTag (h1 tg).t then
          markGo fuel (h1 tg).l h1 stk
        else if isBinaryTag (h1 tg).t then
          markGo fuel (h1 tg).l h1 ((h1 tg).r :: stk)
        else
          match stk with
          | [] => (h1, none)
          | c2 :: rest => markGo fuel c2 h1 rest

/-- The `mark` function (lines 118-168): load the roots onto the stack
(the C array is popped from the top, so the last root is processed
first) and run the worklist loop. -/
def mark (fuel : Nat) (h : Nat → GCell) (roots : List (Option Nat)) :
    (Nat → GCell) × Option GCErr :=
  markGo fuel none h roots.reverse

/-- One sweep step (lines 176-184): a marked old cell is unmarked, an
unmarked one is threaded onto the free list through its `l` field.
State is (heap, free list head, freed count). -/
def sweepStep (st : (Nat → GCell) × Option Nat × Nat) (a : Nat) :
    (Nat → GCell) × Option Nat × Nat :=
  let (h, fl, freed) := st
  if (h a).marked then (upd h a { h a with marked := false }, fl, freed)
  else (upd h a { h a with l := fl }, some a, freed + 1)

/-- The `grow` function (lines 74-85): append one fresh chunk of
HEAP_CHUNK_SIZE cells, thread them onto the free list through `l` (the
last cell points at the old free-list head), and record the chunk at
the front of the sweep order.  `malloc` is modelled by handing out the
address range starting at `nextFresh`; the cells' other fields keep
whatever the heap function held there (uninitialised memory). -/
def grow (s : GCState) : GCState :=
  let base := s.nextFresh
  { s with
    heap := fun a =>
      if base ≤ a ∧ a < base + HEAP_CHUNK_SIZE then
        { s.heap a with
          l := if a = base + HEAP_CHUNK_SIZE - 1 then s.free_list
               else some (a + 1) }
      else s.heap a
    free_list := some base
    oldCells := (List.range HEAP_CHUNK_SIZE).map (base + ·) ++ s.oldCells
    nextFresh := base + HEAP_CHUNK_SIZE }

/-- The `while (freed < total / 5) grow();` loop at the end of
`major_gc` (lines 195-199), followed by the `major_gc_count++`. -/
def growLoop : Nat → GCState → Nat → Nat → GCState × Option GCErr
  | 0, s, freed, total =>
    if freed < total / 5 then (s, some .outOfFuel)
    else ({ s with major_gc_count := s.major_gc_count + 1 }, none)
  | fuel + 1, s, freed, total =>
    if freed < total / 5 then
      growLoop fuel (grow s) (freed + HEAP_CHUNK_SIZE)
        (total + HEAP_CHUNK_SIZE)
    else ({ s with major_gc_count := s.major_gc_count + 1 }, none)

/-- The `major_gc` function (lines 170-201): mark from the roots, sweep
every old chunk cell, clear the mark bits of both young arrays, then
grow until at least one fifth of the old cells are free. -/
def major_gc (fuel : Nat) (s : GCState) (roots : List (Option Nat)) :
    GCState × Option GCErr :=
  match (mark fuel s.heap roots).2 with
  | some e => ({ s with heap := (mark fuel s.heap roots).1 }, some e)
  | none =>
    let h1 := (mark fuel s.heap roots).1
    let sw := s.oldCells.foldl sweepStep (h1, s.free_list, 0)
    let h2 := sw.1
    let fl := sw.2.1
    let freed := sw.2.2
    let total := s.oldCells.length
    let h3 := fun a =>
      if a < 2 * YOUNG_SIZE then { h2 a with marked := false } else h2 a
    growLoop fuel { s with heap := h3, free_list := fl } freed total

/-- The `copy_cell` function (lines 203-229), with the C's exact
sequential read/write order (so pointer aliasing between the source,
the free-list head and `free_ptr` behaves as in C).  The returned error
marks the null dereference `free_list->l` when promoting with an empty
free list. -/
def copy_cell (s : GCState) (c : Option Nat) :
    GCState × Option Nat × Option GCErr :=
  match c with
  | none => (s, none, none)
  | some a =>
    if (s.heap a).t = .COPIED then (s, (s.heap a).l, none)
    else if AGE_MAX < (s.heap a).age then (s, some a, none)
    else if (s.heap a).age = AGE_MAX then
      match s.free_list with
      | none => (s, none, some .copyNullDeref)
      | some rAddr =>
        let s1 := { s with
          free_list := (s.heap rAddr).l
          heap := upd s.heap s.free_ptr
            { s.heap s.free_ptr with t := .COPIED, l := some rAddr }
          free_ptr := s.free_ptr + 1 }
        let s2 := { s1 with
          heap := upd s1.heap rAddr
            { s1.heap a with age := ((s1.heap a).age + 1) % 256 } }
        let s3 := { s2 with
          heap := upd s2.heap a
            { s2.heap a with t := .COPIED, l := some rAddr } }
        (s3, some rAddr, none)
    else
      let rAddr := s.free_ptr
      let s1 := { s with free_ptr := s.free_ptr + 1 }
      let s2 := { s1 with
        heap := upd s1.heap rAddr
          { s1.heap a with age := ((s1.heap a).age + 1) % 256 } }
      let s3 := { s2 with
        heap := upd s2.heap a
          { s2.heap a with t := .COPIED, l := some rAddr } }
      (s3, some rAddr, none)

/-- Whether the cell referenced by `c` would take the promotion branch of
`copy_cell` (ghost instrumentation for the event log). -/
def promoNeeded (s : GCState) (c : Option Nat) : Bool :=
  match c with
  | none => false
  | some a => (s.heap a).t ≠ .COPIED && (s.heap a).age = AGE_MAX

/-- One `if (!free_list) major_gc(roots, nroot);` check site of `gc_run`
(lines 239-240, 246-247, 273-274).  Appends one ghost event recording
(free list empty?, impending copy needs promotion?), then runs a major
collection exactly when the free list is empty. -/
def checkSite (fuel : Nat) (s : GCState) (roots : List (Option Nat))
    (target : Option Nat) : GCState × Option GCErr :=
  let s1 := { s with
    events := s.events ++ [(s.free_list.isNone, promoNeeded s target)] }
  if s1.free_list = none then major_gc fuel s1 roots else (s1, none)

/-- The root-copying loop of `gc_run` (lines 238-243).  `done` holds the
already-processed prefix of the root array (updated in place in C), and
the whole current array is what `major_gc` receives as roots. -/
def rootsLoop (fuel : Nat) (s : GCState) (done : List (Option Nat)) :
    List (Option Nat) → GCState × List (Option Nat) × Option GCErr
  | [] => (s, done, none)
  | r :: pending =>
    let ck := checkSite fuel s (done ++ r :: pending) r
    match ck.2 with
    | some e => (ck.1, done ++ r :: pending, some e)
    | none =>
      match r with
      | none => rootsLoop fuel ck.1 (done ++ [none]) pending
      | some a =>
        let cp := copy_cell ck.1 (some a)
        match cp.2.2 with
        | some e => (cp.1, done ++ some a :: pending, some e)
        | none => rootsLoop fuel cp.1 (done ++ [cp.2.1]) pending

/-- Ghost instrumentation for the scan loop's first check site: the cell
the first `copy_cell` of this iteration would copy (the resolved scan
cell's left child, when it has one). -/
def scanTarget (s : GCState) (scan : Nat) : Option Nat :=
  match (if (s.heap scan).t = .COPIED then (s.heap scan).l else some scan) with
  | none => none
  | some ca =>
    if isUnaryTag (s.heap ca).t || isBinaryTag (s.heap ca).t then
      (s.heap ca).l
    else none

/-- One iteration of the Cheney scan loop of `gc_run` (lines 246-279):
check the free list (possibly running a major collection), follow one
COPIED forwarding at the scan cell (a second COPIED is the `[BUG]`
trap), and copy the children per the tag's field set, with a fresh
free-list check before the second child of a binary cell. -/
def scanBody (fuel : Nat) (roots : List (Option Nat)) (s : GCState)
    (scan : Nat) : GCState × Option GCErr :=
  let ck := checkSite fuel s roots (scanTarget s scan)
  match ck.2 with
  | some e => (ck.1, some e)
  | none =>
    let s1 := ck.1
    match (if (s1.heap scan).t = .COPIED then (s1.heap scan).l
           else some scan) with
    | none => (s1, some .scanNullDeref)
    | some ca =>
      if (s1.heap ca).t = .COPIED then (s1, some .bugCopied)
      else if isUnaryTag (s1.heap ca).t then
        let cp := copy_cell s1 ((s1.heap ca).l)
        match cp.2.2 with
        | some e => (cp.1, some e)
        | none =>
          ({ cp.1 with
             heap := upd cp.1.heap ca { cp.1.heap ca with l := cp.2.1 } },
           none)
      else if isBinaryTag (s1.heap ca).t then
        let cp := copy_cell s1 ((s1.heap ca).l)
        match cp.2.2 with
        | some e => (cp.1, some e)
        | none =>
          let s3 := { cp.1 with
            heap := upd cp.1.heap ca { cp.1.heap ca with l := cp.2.1 } }
          let ck2 := checkSite fuel s3 roots ((s3.heap ca).r)
          match ck2.2 with
          | some e => (ck2.1, some e)
          | none =>
            let cp2 := copy_cell ck2.1 ((ck2.1.heap ca).r)
            match cp2.2.2 with
            | some e => (cp2.1, some e)
            | none =>
              ({ cp2.1 with
                 heap := upd cp2.1.heap ca
                   { cp2.1.heap ca with r := cp2.2.1 } },
               none)
      else (s1, none)

/-- The `while (scan < free_ptr)` loop of `gc_run` (lines 245-281). -/
def scanLoop (fuel : Nat) (s : GCState) (roots : List (Option Nat))
    (scan : Nat) : GCState × List (Option Nat) × Option GCErr :=
  match fuel with
  | 0 =>
    if scan < s.free_ptr then (s, roots, some .outOfFuel)
    else (s, roots, none)
  | fuel2 + 1 =>
    if scan < s.free_ptr then
      let b := scanBody fuel2 roots s scan
      match b.2 with
      | some e => (b.1, roots, some e)
      | none => scanLoop fuel2 b.1 roots (scan + 1)
    else (s, roots, none)

/-- The `gc_run` minor collection (lines 231-290): swap the young
regions, copy the roots, run the Cheney scan, count the collection.
Statistics printing and the clock are elided. -/
def gc_run (fuel : Nat) (s0 : GCState) (roots0 : List (Option Nat)) :
    GCState × List (Option Nat) × Option GCErr :=
  let fp := s0.next_young_area
  let s := { s0 with
    free_ptr := fp
    next_young_area := s0.young_area_end - YOUNG_SIZE
    young_area_end := fp + YOUNG_SIZE }
  let rl := rootsLoop fuel s [] roots0
  match rl.2.2 with
  | some e => (rl.1, rl.2.1, some e)
  | none =>
    let sl := scanLoop fuel rl.1 rl.2.1 fp
    match sl.2.2 with
    | some e => (sl.1, sl.2.1, some e)
    | none =>
      ({ sl.1 with minor_gc_count := sl.1.minor_gc_count + 1 }, sl.2.1, none)

-- Primitive application (address level) --------------------------------

/-- Address-level evaluator registers for the primitive-application cases
of `run()`. -/
structure RState where
  heap : Nat → GCell
  free_ptr : Nat
  young_area_end : Nat
  current_ch : Option Nat
  input : List Nat
  task : CellType
  task_val : Option Nat
  next_cont : Option Nat
  val : Option Nat

/-- The AT, QUES and PIPE cases of the `apply` switch (lines 568-581), at
address level.  `new_cell` / `new_cell0` bump `free_ptr` and assign only
the fields the C assigns; the rest keep their stale contents.  The GC
safe point at the `apply` entry is modelled separately (`gc_run`);
other operator tags are out of scope here and leave the state
unchanged. -/
def applyPrim (s : RState) (op : Nat) : RState :=
  match (s.heap op).t with
  | .AT =>
    let ch2 := s.input.head?
    let s0 := { s with current_ch := ch2, input := s.input.tail }
    let fp := s0.free_ptr
    let h1 := upd s0.heap fp
      { s0.heap fp with
        t := s0.task, age := 0, l := s0.next_cont, r := s0.task_val }
    let s1 := { s0 with
      heap := h1
      free_ptr := fp + 1
      next_cont := some fp
      task := .APPLY
      task_val := s0.val }
    let fp2 := s1.free_ptr
    let h2 := upd s1.heap fp2
      { s1.heap fp2 with t := if ch2 = none then .V else .I, age := 0 }
    { s1 with heap := h2, free_ptr := fp2 + 1, val := some fp2 }
  | .QUES =>
    let fp := s.free_ptr
    let h1 := upd s.heap fp
      { s.heap fp with
        t := s.task, age := 0, l := s.next_cont, r := s.task_val }
    let s1 := { s with
      heap := h1
      free_ptr := fp + 1
      next_cont := some fp
      task := .APPLY
      task_val := s.val }
    let fp2 := s1.free_ptr
    let h2 := upd s1.heap fp2
      { s1.heap fp2 with
        t := if s.current_ch = some (s.heap op).ch then .I else .V
        age := 0 }
    { s1 with heap := h2, free_ptr := fp2 + 1, val := some fp2 }
  | .PIPE =>
    let fp := s.free_ptr
    let h1 := upd s.heap fp
      { s.heap fp with
        t := s.task, age := 0, l := s.next_cont, r := s.task_val }
    let s1 := { s with
      heap := h1
      free_ptr := fp + 1
      next_cont := some fp
      task := .APPLY
      task_val := s.val }
    let fp2 := s1.free_ptr
    let h2 := upd s1.heap fp2
      { s1.heap fp2 with
        t := if s.current_ch = none then .V else .DOT
        age := 0
        ch := match s.current_ch with
          | none => 255
          | some c => c % 256 }
    { s1 with heap := h2, free_ptr := fp2 + 1, val := some fp2 }
  | _ => s

-- Reachability and ranks for the mark phase ----------------------------

/-- Cells the mark phase is meant to mark: targets (one COPIED forwarding
followed) of the roots, closed under the child references of already
reachable cells. -/
inductive Marks (h : Nat → GCell) (roots : List (Option Nat)) : Nat → Prop
  | root (a tg : Nat) : some a ∈ roots → targetOf h a = some tg →
      Marks h roots tg
  | child (tg a tg2 : Nat) : Marks h roots tg →
      some a ∈ childRefs (h tg) → targetOf h a = some tg2 →
      Marks h roots tg2

/-- Rank-function well-formedness of a heap: every COPIED cell forwards
to an existing non-COPIED cell of the same rank (so forwarding chains
have length one, as the scan loop's `[BUG]` trap assumes), and child
references strictly decrease rank (the heap graph is a DAG through
forwardings). -/
def WFr (h : Nat → GCell) (rank : Nat → Nat) : Prop :=
  ∀ a : Nat,
    ((h a).t = .COPIED →
      ∃ b, (h a).l = some b ∧ (h b).t ≠ .COPIED ∧ rank b = rank a) ∧
    ((h a).t ≠ .COPIED →
      ∀ b : Nat, some b ∈ childRefs (h a) → rank b < rank a)

/-- Weight of one worklist entry for the termination measure of `mark`. -/
def wOf (rank : Nat → Nat) : Option Nat → Nat
  | none => 1
  | some a => 3 ^ (rank a + 1)

/-- Termination measure of the mark worklist: total weight of the
current chain cell and the stack. -/
def MOf (rank : Nat → Nat) (l : List (Option Nat)) : Nat :=
  (l.map (wOf rank)).sum

/-- A worklist entry `c` is handled once its mark target (the cell it
denotes after one COPIED hop) carries the mark bit in the final heap. -/
def handled (h hf : Nat → GCell) (c : Option Nat) : Prop :=
  ∀ a tg : Nat, c = some a → targetOf h a = some tg → (hf tg).marked = true

/-- No double forwarding: a COPIED cell never forwards to another COPIED
cell (the scan loop's `[BUG]` trap assumes exactly this). -/
def NDF (h : Nat → GCell) : Prop :=
  ∀ a, (h a).t = .COPIED → ∀ b, (h a).l = some b → (h b).t ≠ .COPIED

/-- Marked cells are never COPIED forwarding records. -/
def MInv (h : Nat → GCell) : Prop :=
  ∀ a, (h a).marked = true → (h a).t ≠ .COPIED

-- Concrete states used by witnesses and counterexamples ----------------

/-- Default cell used to populate concrete heaps: an unmarked young I
leaf. -/
def dfltG : GCell := ⟨.I, 0, 0, false, none, none⟩

/-- Machine state used by the C1 witness: about to apply an operator to
a K1 value. -/
def c1State : MState :=
  { current_ch := none
    input := []
    output := []
    task := .EXIT
    task_val := none
    next_cont := none
    val := some (.mk .K1 0 (some (preCell .I)) none) }

/-- Heap state used by the C2 witness: cell 7 is a young cell of age
AGE_MAX about to be promoted into old cell 800. -/
def c2State : GCState :=
  { heap := fun a =>
      if a = 7 then ⟨.K1, 3, 2, false, some 9, some 11⟩
      else if a = 800 then ⟨.S, 0, 9, false, some 801, none⟩
      else dfltG
    free_list := some 800
    free_ptr := 100
    young_area_end := YOUNG_SIZE
    next_young_area := YOUNG_SIZE
    oldCells := []
    nextFresh := 900
    major_gc_count := 0
    minor_gc_count := 0
    events := [] }

/-- Register state used by claim C3: the operator at address 524288 is
the AT primitive; the only V-tagged cell of the heap is the old-space
singleton at address 524290; the input is at EOF. -/
def c3State : RState :=
  { heap := fun a =>
      if a = 524288 then ⟨.AT, 0, 3, false, none, none⟩
      else if a = 524290 then ⟨.V, 0, 3, false, none, none⟩
      else dfltG
    free_ptr := 5
    young_area_end := YOUNG_SIZE
    current_ch := none
    input := []
    task := .EXIT
    task_val := none
    next_cont := none
    val := some 524288 }

/-- Program bytes of claim C4 (backtick r backtick d backtick dot X i). -/
def prog4 : List Nat := [96, 114, 96, 100, 96, 46, 88, 105]

/-- Program bytes of claim C5 (backtick backtick c i r). -/
def prog5 : List Nat := [96, 96, 99, 105, 114]

/-- Storage state used by claim C6: the active young region is full, the
free list is empty, the six old cells are all unmarked, and the only
root is a young cell of age 0 (which does not need promotion). -/
def c6State : GCState :=
  { heap := fun _ => dfltG
    free_list := none
    free_ptr := 0
    young_area_end := YOUNG_SIZE
    next_young_area := YOUNG_SIZE
    oldCells := [600000, 600001, 600002, 600003, 600004, 600005]
    nextFresh := 700000
    major_gc_count := 0
    minor_gc_count := 0
    events := [] }

/-- Heap used by the C7 counterexample: address 0 is a COPIED cell
forwarding to address 1, whose K1 cell's child points back at address
0.  The COPIED cell itself is never marked, so the goto-top chain of
`mark` revisits it forever. -/
def c7Heap : Nat → GCell := fun a =>
  if a = 0 then ⟨.COPIED, 0, 0, false, some 1, none⟩
  else if a = 1 then ⟨.K1, 0, 0, false, some 0, none⟩
  else dfltG

/-- All-leaf heap used by the C7 witness. -/
def c7WitHeap : Nat → GCell := fun _ => dfltG

/-- Storage state used by the C10 witness. -/
def c10State : GCState :=
  { heap := fun _ => dfltG
    free_list := some 600000
    free_ptr := 0
    young_area_end := YOUNG_SIZE
    next_young_area := YOUNG_SIZE
    oldCells := [600000, 600001, 600002, 600003, 600004]
    nextFresh := 700000
    major_gc_count := 0
    minor_gc_count := 0
    events := [] }

-- Helper lemmas --------------------------------------------------------

/-- The machine is deterministic: two runs from the same configuration
that both come to an answer come to the same answer. -/
theorem run_det (f1 : Nat) : ∀ (f2 : Nat) (p : Phase) (st : MState),
    run f1 p st ≠ .stepsOut → run f2 p st ≠ .stepsOut →
    run f1 p st = run f2 p st := by
  induction f1 with
  | zero => intro f2 p st h1 _; exact absurd rfl h1
  | succ f ih =>
    intro f2 p st h1 h2
    match f2 with
    | 0 => exact absurd rfl h2
    | g + 1 =>
      simp only [run] at h1 h2 ⊢
      cases hs : step p st with
      | next p2 st2 =>
        rw [hs] at h1 h2
        exact ih g p2 st2 h1 h2
      | halted s => rfl
      | failed s => rfl

/-- The observable behaviour of the interpreter does not depend on the
fuel, whenever the fuel suffices. -/
theorem interpret_det (f1 f2 : Nat) (bs inp : List Nat) (r1 r2 : Nat × List Nat)
    (h1 : interpret f1 bs inp = some r1) (h2 : interpret f2 bs inp = some r2) :
    r1 = r2 := by
  unfold interpret at h1 h2
  cases hp : parse bs with
  | error e =>
    rw [hp] at h1 h2
    simp only [Option.some.injEq] at h1 h2
    rw [← h1, ← h2]
  | ok v =>
    obtain ⟨tree, rest, log⟩ := v
    rw [hp] at h1 h2
    dsimp only at h1 h2
    have hne1 : run f1 .evalP (initState tree inp) ≠ .stepsOut := by
      intro hh; rw [hh] at h1; simp at h1
    have hne2 : run f2 .evalP (initState tree inp) ≠ .stepsOut := by
      intro hh; rw [hh] at h2; simp at h2
    have heq := run_det f1 f2 .evalP (initState tree inp) hne1 hne2
    rw [heq] at h1
    cases hr : run f2 .evalP (initState tree inp) with
    | halted s =>
      rw [hr] at h1 h2
      simp only [Option.some.injEq] at h1 h2
      rw [← h1, ← h2]
    | failed s =>
      rw [hr] at h1 h2
      simp only [Option.some.injEq] at h1 h2
      rw [← h1, ← h2]
    | stepsOut => exact absurd hr hne2

-- Claim C1 -------------------------------------------------------------

/-- C1: at an application step whose operator has tag S, a K1 argument
yields a fresh B1 cell whose l is the argument's l, and any other
argument yields a fresh S1 cell whose l is the argument; at a step
whose operator has tag S1, a K1 argument yields T1(val.l) when the
operator's l has tag I, V2(op.l.l, val.l) when it has tag T1, and
C2(op.l, val.l) otherwise, while a non-K1 argument yields
S2(op.l, val). -/
theorem claim_C1 (st : MState) (v : Cell) (opch : Nat)
    (opl opr : Option Cell) (hval : st.val = some v) :
    ((v.t = .K1 →
        step (.applyP (.mk .S opch opl opr)) st =
          .next .dispatchP { st with val := some (.mk .B1 0 v.l none) }) ∧
      (v.t ≠ .K1 →
        step (.applyP (.mk .S opch opl opr)) st =
          .next .dispatchP { st with val := some (.mk .S1 0 (some v) none) })) ∧
    ((v.t ≠ .K1 →
        step (.applyP (.mk .S1 opch opl opr)) st =
          .next .dispatchP { st with val := some (.mk .S2 0 opl (some v)) }) ∧
      ∀ w : Cell, opl = some w →
        ((v.t = .K1 → w.t = .I →
            step (.applyP (.mk .S1 opch opl opr)) st =
              .next .dispatchP { st with val := some (.mk .T1 0 v.l none) }) ∧
          (v.t = .K1 → w.t = .T1 →
            step (.applyP (.mk .S1 opch opl opr)) st =
              .next .dispatchP { st with val := some (.mk .V2 0 w.l v.l) }) ∧
          (v.t = .K1 → w.t ≠ .I → w.t ≠ .T1 →
            step (.applyP (.mk .S1 opch opl opr)) st =
              .next .dispatchP
                { st with val := some (.mk .C2 0 (some w) v.l) }))) := by
  obtain ⟨vt, vch, vl, vr⟩ := v
  simp only [Cell.t, Cell.l] at *
  refine ⟨⟨?_, ?_⟩, ?_, ?_⟩
  · intro hk
    subst hk
    simp [step, applyStep, Cell.t, Cell.l, hval]
  · intro hk
    simp [step, applyStep, Cell.t, Cell.l, hval, hk]
  · intro hk
    simp [step, applyStep, Cell.t, Cell.l, hval, hk]
  · intro w hw
    obtain ⟨wt, wch, wl, wr⟩ := w
    simp only [Cell.t, Cell.l] at *
    refine ⟨?_, ?_, ?_⟩
    · intro hk hi
      subst hk; subst hi
      simp [step, applyStep, Cell.t, Cell.l, hval, hw]
    · intro hk ht
      subst hk; subst ht
      simp [step, applyStep, Cell.t, Cell.l, hval, hw]
    · intro hk hi ht
      subst hk
      simp [step, applyStep, Cell.t, Cell.l, hval, hw, hi, ht]

/-- Witness for C1 at a concrete machine state whose value register
holds a K1 cell. -/
theorem claim_C1_witness :
    c1State.val = some (.mk .K1 0 (some (preCell .I)) none) ∧
      step (.applyP (.mk .S 0 none none)) c1State =
        .next .dispatchP
          { c1State with val := some (.mk .B1 0 (some (preCell .I)) none) } :=
  ⟨rfl,
    (claim_C1 c1State (.mk .K1 0 (some (preCell .I)) none) 0 none none
        rfl).1.1 rfl⟩

-- Claim C2 -------------------------------------------------------------

/-- C2: `copy_cell` realises exactly the five specified cases: null
yields null; a COPIED cell yields its forwarding target; a cell with
age above AGE_MAX is returned unchanged; a cell at AGE_MAX is promoted
into the cell popped off the free list, with a COPIED forwarding record
written in the active young region at `free_ptr` and the old cell
returned; a younger cell is copied to to-space with its age increased
by one and a forwarding installed in the source.  In every non-null
case the heap outside the three written addresses is untouched and the
copy keeps the source's children, so children are never copied
recursively. -/
theorem claim_C2 (s : GCState) (a : Nat) :
    (copy_cell s none = (s, none, none)) ∧
    ((s.heap a).t = .COPIED →
      copy_cell s (some a) = (s, (s.heap a).l, none)) ∧
    ((s.heap a).t ≠ .COPIED → AGE_MAX < (s.heap a).age →
      copy_cell s (some a) = (s, some a, none)) ∧
    (∀ f2 : Nat, (s.heap a).t ≠ .COPIED → (s.heap a).age = AGE_MAX →
      s.free_list = some f2 → a ≠ s.free_ptr → f2 ≠ s.free_ptr → f2 ≠ a →
      (copy_cell s (some a)).2.1 = some f2 ∧
        (copy_cell s (some a)).2.2 = none ∧
        (copy_cell s (some a)).1.free_list = (s.heap f2).l ∧
        (copy_cell s (some a)).1.free_ptr = s.free_ptr + 1 ∧
        (copy_cell s (some a)).1.heap f2 =
          { s.heap a with age := (s.heap a).age + 1 } ∧
        (copy_cell s (some a)).1.heap s.free_ptr =
          { s.heap s.free_ptr with t := .COPIED, l := some f2 } ∧
        (copy_cell s (some a)).1.heap a =
          { s.heap a with t := .COPIED, l := some f2 } ∧
        (∀ x, x ≠ a → x ≠ f2 → x ≠ s.free_ptr →
          (copy_cell s (some a)).1.heap x = s.heap x)) ∧
    ((s.heap a).t ≠ .COPIED → (s.heap a).age < AGE_MAX → a ≠ s.free_ptr →
      (copy_cell s (some a)).2.1 = some s.free_ptr ∧
        (copy_cell s (some a)).2.2 = none ∧
        (copy_cell s (some a)).1.free_list = s.free_list ∧
        (copy_cell s (some a)).1.free_ptr = s.free_ptr + 1 ∧
        (copy_cell s (some a)).1.heap s.free_ptr =
          { s.heap a with age := (s.heap a).age + 1 } ∧
        (copy_cell s (some a)).1.heap a =
          { s.heap a with t := .COPIED, l := some s.free_ptr } ∧
        (∀ x, x ≠ a → x ≠ s.free_ptr →
          (copy_cell s (some a)).1.heap x = s.heap x)) := by
  refine ⟨rfl, ?_, ?_, ?_, ?_⟩
  · intro hcop
    simp [copy_cell, hcop]
  · intro hcop hage
    simp [copy_cell, hcop, hage]
  · intro f2 hcop hage hfl ha hf hfa
    have hnlt : ¬ AGE_MAX < (s.heap a).age := by omega
    have hmod : ((s.heap a).age + 1) % 256 = (s.heap a).age + 1 := by
      rw [hage]; rfl
    simp only [copy_cell, if_neg hcop, if_neg hnlt, if_pos hage, hfl]
    simp [upd, ha, hf, hfa, Ne.symm hf, Ne.symm ha, Ne.symm hfa, hmod]
    intro x hx1 hx2 hx3
    simp [hx1, hx2, hx3]
  · intro hcop hage ha
    have hnlt : ¬ AGE_MAX < (s.heap a).age := by omega
    have hne : (s.heap a).age ≠ AGE_MAX := by omega
    have hmod : ((s.heap a).age + 1) % 256 = (s.heap a).age + 1 := by
      have h256 : (s.heap a).age + 1 < 256 := by
        unfold AGE_MAX at hage; omega
      exact Nat.mod_eq_of_lt h256
    simp only [copy_cell, if_neg hcop, if_neg hnlt, if_neg hne]
    simp [upd, ha, Ne.symm ha, hmod]
    intro x hx1 hx2
    simp [hx1, hx2]

/-- Witness for C2 at the concrete promotion state: cell 7 has age
AGE_MAX and is promoted into old cell 800. -/
theorem claim_C2_witness :
    ((c2State.heap 7).t ≠ .COPIED ∧ (c2State.heap 7).age = AGE_MAX ∧
        c2State.free_list = some 800 ∧ (7 : Nat) ≠ c2State.free_ptr ∧
        (800 : Nat) ≠ c2State.free_ptr ∧ (800 : Nat) ≠ 7) ∧
      (copy_cell c2State (some 7)).2.1 = some 800 := by
  have h := (claim_C2 c2State 7).2.2.2.1 800 (by decide) (by decide)
    (by decide) (by decide) (by decide) (by decide)
  exact ⟨⟨by decide, by decide, by decide, by decide, by decide, by decide⟩,
    h.1⟩

-- Claim C4 -------------------------------------------------------------

/-- C4 counterexample: on the program of claim C4 the interpreter never
produces the byte sequence newline-then-X; at any sufficient fuel it
halts with exit code 0 having written exactly one newline byte, so the
claimed observable behaviour (exit 0 with output [10, 88]) is
impossible. -/
theorem claim_C4_counterexample :
    ¬ ∃ fuel : Nat, interpret fuel prog4 [] = some (0, [10, 88]) := by
  rintro ⟨fuel, hf⟩
  have hgood : interpret 100 prog4 [] = some (0, [10]) := by decide
  have := interpret_det fuel 100 prog4 [] (0, [10, 88]) (0, [10]) hf hgood
  simp at this

/-- C4 (amended): running the interpreter on the program of claim C4
terminates with exit code 0 and writes exactly one byte, the newline:
the application of d to the unevaluated expression dot-X-applied-to-i
produces a promise that is never itself applied, so it is never forced
and X is never printed; r's DOT prints the newline. -/
theorem claim_C4_amended : interpret 100 prog4 [] = some (0, [10]) := by
  decide

-- Claim C5 -------------------------------------------------------------

/-- C5 counterexample: on the program of claim C5 the interpreter never
terminates silently; at any sufficient fuel it halts with exit code 0
having written one newline byte, so the claimed behaviour (exit 0 with
no output) is impossible. -/
theorem claim_C5_counterexample :
    ¬ ∃ fuel : Nat, interpret fuel prog5 [] = some (0, []) := by
  rintro ⟨fuel, hf⟩
  have hgood : interpret 100 prog5 [] = some (0, [10]) := by decide
  have := interpret_det fuel 100 prog5 [] (0, []) (0, [10]) hf hgood
  simp at this

/-- C5 (amended): running the interpreter on the program of claim C5
terminates with exit code 0 and writes exactly one newline byte: c
passes the current continuation to i, which returns it; applying the
continuation to r restores the saved EVAL_RIGHT frame, which then
applies r (a DOT cell with ch newline) as an operator, printing the
newline. -/
theorem claim_C5_amended : interpret 100 prog5 [] = some (0, [10]) := by
  decide

-- Claim C9 -------------------------------------------------------------

/-- C9 counterexample: with the single argument -u the argument loop of
`main` does not proceed to parse and run a program. -/
theorem claim_C9_counterexample :
    ¬ ∃ (p : Option (List Nat)) (v : Nat),
      argsLoop [[45, 117]] none 0 = .runProg p v := by
  rintro ⟨p, v, h⟩
  rw [show argsLoop [[45, 117]] none 0 = .badOption [45, 117] 1 from rfl] at h
  exact ArgOutcome.noConfusion h

/-- C9 (amended): the flag -u is treated as an unrecognised option: the
argument loop reports it as a bad option and the process exits with
code 1; no flag of the interpreter disables stdout buffering. -/
theorem claim_C9_amended :
    argsLoop [[45, 117]] none 0 = .badOption [45, 117] 1 := rfl

-- Parser helper lemmas -------------------------------------------------

/-- Skipping to the next token consumes at least one byte. -/
theorem skipToToken_lt : ∀ (flag : Bool) (bs : List Nat) (b : Nat)
    (rest : List Nat), skipToToken flag bs = some (b, rest) →
    rest.length < bs.length := by
  intro flag bs
  induction bs generalizing flag with
  | nil => intro b rest h; simp [skipToToken] at h
  | cons x xs ih =>
    intro b rest h
    cases flag with
    | true =>
      simp only [skipToToken] at h
      by_cases hx : x = 10
      · rw [if_pos hx] at h
        have := ih false b rest h
        simp only [List.length_cons]; omega
      · rw [if_neg hx] at h
        have := ih true b rest h
        simp only [List.length_cons]; omega
    | false =>
      simp only [skipToToken] at h
      by_cases h35 : x = 35
      · rw [if_pos h35] at h
        have := ih true b rest h
        simp only [List.length_cons]; omega
      · rw [if_neg h35] at h
        by_cases hsp : isSpace x = true
        · rw [if_pos hsp] at h
          have := ih false b rest h
          simp only [List.length_cons]; omega
        · rw [if_neg hsp] at h
          injection h with h2
          injection h2 with h3 h4
          subst h4
          simp

/-- Reading a token consumes at least one byte. -/
theorem nextToken_lt (bs : List Nat) (b : Nat) (rest : List Nat)
    (h : nextToken bs = some (b, rest)) : rest.length < bs.length :=
  skipToToken_lt false bs b rest h

/-- An atom byte makes `tokenCell` succeed without consuming more input,
logging no atomic-tag allocation. -/
theorem tokenCell_atom (b : Nat) (rest : List Nat) (h : isAtomB b = true) :
    ∃ (e : Cell) (ev : List Alloc), tokenCell b rest = .ok (e, rest, ev) ∧
      ∀ x ∈ ev, isAtomicTag x.t = false ∧ x.age = AGE_MAX + 1 := by
  simp only [isAtomB, Bool.or_eq_true, decide_eq_true_eq] at h
  rcases h with
    (((((((((((((((((h | h) | h) | h) | h) | h) | h) | h) | h) | h) | h) |
      h) | h) | h) | h) | h) | h) | h) <;> subst h <;>
    exact ⟨_, _, rfl, by intro x hx; simp_all [isAtomicTag]⟩

/-- A byte that is neither backtick, nor an atom, nor a character
primitive introducer is rejected by `tokenCell`. -/
theorem tokenCell_other (b : Nat) (rest : List Nat) (hA : isAtomB b = false)
    (h46 : b ≠ 46) (h63 : b ≠ 63) :
    tokenCell b rest = .error (.unexpectedChar b) := by
  simp only [isAtomB, Bool.or_eq_false_iff, decide_eq_false_iff_not] at hA
  obtain ⟨⟨⟨⟨⟨⟨⟨⟨⟨⟨⟨⟨⟨⟨⟨⟨⟨h1, h2⟩, h3⟩, h4⟩, h5⟩, h6⟩, h7⟩, h8⟩, h9⟩,
    h10⟩, h11⟩, h12⟩, h13⟩, h14⟩, h15⟩, h16⟩, h17⟩, h18⟩ := hA
  simp [tokenCell, h1, h2, h3, h4, h5, h6, h7, h8, h9, h10, h11, h12,
    h13, h14, h15, h16, h17, h18, h46, h63]

/-- Behaviour of `tokenCell` on the character primitives: EOF right
after the introducer is fatal, otherwise one byte is consumed and a
DOT or QUES cell allocated. -/
theorem tokenCell_dot (b : Nat) (hd : b = 46 ∨ b = 63) :
    tokenCell b [] = .error .unexpectedEOF ∧
      ∀ (c : Nat) (rest2 : List Nat),
        ∃ (e : Cell) (ev : List Alloc),
          tokenCell b (c :: rest2) = .ok (e, rest2, ev) ∧
            ∀ x ∈ ev, isAtomicTag x.t = false ∧ x.age = AGE_MAX + 1 := by
  rcases hd with h|h <;> subst h <;>
    exact ⟨rfl, fun c rest2 =>
      ⟨_, _, rfl, by intro x hx; simp_all [isAtomicTag]⟩⟩

/-- A completed expression meeting a stack with no empty slot finishes
the parse. -/
theorem resolveStack_full (e : Cell) :
    ∀ stack : List (Option Cell),
      stack.countP (fun x => x.isNone) = 0 →
      ∃ d, resolveStack e stack = .inl d := by
  intro stack
  induction stack generalizing e with
  | nil => intro _; exact ⟨e, rfl⟩
  | cons x rest ih =>
    intro hc
    cases x with
    | none => simp [List.countP_cons] at hc
    | some lc =>
      simp only [List.countP_cons, Option.isNone_some] at hc
      exact ih (.mk .AP 0 (some lc) (some e)) (by simpa using hc)

/-- A completed expression meeting a stack with an empty slot fills the
topmost one, decreasing the number of empty slots by one. -/
theorem resolveStack_fill (e : Cell) :
    ∀ (stack : List (Option Cell)) (n : Nat),
      stack.countP (fun x => x.isNone) = n + 1 →
      ∃ stack2, resolveStack e stack = .inr stack2 ∧
        stack2.countP (fun x => x.isNone) = n := by
  intro stack
  induction stack generalizing e with
  | nil => intro n hc; simp at hc
  | cons x rest ih =>
    intro n hc
    cases x with
    | none =>
      refine ⟨some e :: rest, rfl, ?_⟩
      simp only [List.countP_cons, Option.isNone_some,
        Option.isNone_none] at hc ⊢
      simp at hc ⊢
      omega
    | some lc =>
      simp only [List.countP_cons, Option.isNone_some] at hc
      have hc2 : rest.countP (fun x => x.isNone) = n + 1 := by
        simp at hc
        exact hc
      exact ih (.mk .AP 0 (some lc) (some e)) n hc2

/-- Every allocation the token loop of the parser appends to the log is
an application or character-primitive cell (never one of the nine
atomic tags) placed in the old generation. -/
theorem parseLoop_log (fuel : Nat) : ∀ (bs : List Nat)
    (stack : List (Option Cell)) (log : List Alloc) (tree : Cell)
    (rest : List Nat) (log2 : List Alloc),
    parseLoop fuel bs stack log = .ok (tree, rest, log2) →
    ∃ extra, log2 = log ++ extra ∧
      ∀ ev ∈ extra, isAtomicTag ev.t = false ∧ ev.age = AGE_MAX + 1 := by
  induction fuel with
  | zero => intro bs stack log tree rest log2 h; cases h
  | succ f ih =>
    intro bs stack log tree rest log2 h
    simp only [parseLoop] at h
    cases hnt : nextToken bs with
    | none => rw [hnt] at h; cases h
    | some p =>
      obtain ⟨b, rest1⟩ := p
      rw [hnt] at h
      dsimp only at h
      by_cases hb : b = 96
      · rw [if_pos hb] at h
        obtain ⟨extra, he, hev⟩ := ih _ _ _ _ _ _ h
        refine ⟨⟨.AP, AGE_MAX + 1⟩ :: extra, by simp [he], ?_⟩
        intro ev hev2
        cases hev2 with
        | head => exact ⟨rfl, rfl⟩
        | tail _ hmem => exact hev ev hmem
      · rw [if_neg hb] at h
        cases htc : tokenCell b rest1 with
        | error e => rw [htc] at h; cases h
        | ok v =>
          obtain ⟨e, rest2, ev⟩ := v
          rw [htc] at h
          dsimp only at h
          have hev : ∀ x ∈ ev, isAtomicTag x.t = false ∧
              x.age = AGE_MAX + 1 := by
            by_cases hA : isAtomB b = true
            · obtain ⟨e2, ev2, htc2, hx⟩ := tokenCell_atom b rest1 hA
              rw [htc2] at htc
              injection htc with h2
              injection h2 with he2 h3
              injection h3 with hr2 hev2eq
              subst hev2eq
              exact hx
            · by_cases hd : b = 46 ∨ b = 63
              · obtain ⟨hnil, hcons⟩ := tokenCell_dot b hd
                cases rest1 with
                | nil => rw [hnil] at htc; cases htc
                | cons c r2 =>
                  obtain ⟨e2, ev2, htc2, hx⟩ := hcons c r2
                  rw [htc2] at htc
                  injection htc with h2
                  injection h2 with he2 h3
                  injection h3 with hr2 hev2eq
                  subst hev2eq
                  exact hx
              · push_neg at hd
                rw [tokenCell_other b rest1 (by simpa using hA) hd.1 hd.2]
                  at htc
                cases htc
          cases hrs : resolveStack e stack with
          | inl d =>
            rw [hrs] at h
            dsimp only at h
            injection h with h2
            injection h2 with ht h3
            injection h3 with hr hlog
            subst hlog
            exact ⟨ev, rfl, hev⟩
          | inr stack2 =>
            rw [hrs] at h
            dsimp only at h
            obtain ⟨extra, he, hx⟩ := ih _ _ _ _ _ _ h
            refine ⟨ev ++ extra, by simp [he], ?_⟩
            intro x hmem
            rcases List.mem_append.mp hmem with hm | hm
            · exact hev x hm
            · exact hx x hm

/-- The token loop succeeds exactly when the input supplies the number
of complete expressions the stack still owes: the scanner `scanOwed`
with owed-count one more than the number of empty stack slots agrees
with the parser. -/
theorem parseLoop_scan (fuel : Nat) : ∀ (bs : List Nat)
    (stack : List (Option Cell)) (log : List Alloc),
    bs.length < fuel →
    ((∃ v, parseLoop fuel bs stack log = .ok v) ↔
      scanOwed fuel (stack.countP (fun x => x.isNone) + 1) bs = true) := by
  induction fuel with
  | zero => intro bs stack log hlen; omega
  | succ f ih =>
    intro bs stack log hlen
    simp only [parseLoop, scanOwed]
    cases hnt : nextToken bs with
    | none => simp
    | some p =>
      obtain ⟨b, rest1⟩ := p
      have hlt := nextToken_lt bs b rest1 hnt
      have hr1f : rest1.length < f := by omega
      dsimp only
      by_cases hb : b = 96
      · simp only [if_pos hb]
        have h2 := ih rest1 (none :: stack)
          (log ++ [({ t := .AP, age := AGE_MAX + 1 } : Alloc)]) hr1f
        rw [h2]
        simp [List.countP_cons]
      · simp only [if_neg hb]
        by_cases hA : isAtomB b = true
        · simp only [if_pos hA]
          have hAx := hA
          obtain ⟨e, ev, htc, _⟩ := tokenCell_atom b rest1 hA
          rw [htc]
          dsimp only
          cases hcp : stack.countP (fun x => x.isNone) with
          | zero =>
            obtain ⟨d, hrs⟩ := resolveStack_full e stack hcp
            rw [hrs]
            simp [scanOwed]
          | succ n =>
            obtain ⟨stack2, hrs, hcp2⟩ := resolveStack_fill e stack n hcp
            rw [hrs]
            dsimp only
            rw [ih rest1 stack2 (log ++ ev) hr1f, hcp2]
        · rw [Bool.not_eq_true] at hA
          simp only [hA, Bool.false_eq_true, if_false]
          by_cases hd : b = 46 ∨ b = 63
          · have hd2 : (b = 46 || b = 63) = true := by
              rcases hd with h | h <;> subst h <;> rfl
            simp only [hd2, if_true]
            cases rest1 with
            | nil =>
              obtain ⟨hnil, _⟩ := tokenCell_dot b hd
              rw [hnil]
              simp
            | cons c r2 =>
              obtain ⟨_, hcons⟩ := tokenCell_dot b hd
              obtain ⟨e, ev, htc, _⟩ := hcons c r2
              rw [htc]
              dsimp only
              have hr2f : r2.length < f := by
                simp only [List.length_cons] at hlt
                omega
              cases hcp : stack.countP (fun x => x.isNone) with
              | zero =>
                obtain ⟨d, hrs⟩ := resolveStack_full e stack hcp
                rw [hrs]
                simp [scanOwed]
              | succ n =>
                obtain ⟨stack2, hrs, hcp2⟩ := resolveStack_fill e stack n hcp
                rw [hrs]
                dsimp only
                rw [ih r2 stack2 (log ++ ev) hr2f, hcp2]
          · push_neg at hd
            have hd2 : (b = 46 || b = 63) = false := by
              simp [hd.1, hd.2]
            rw [tokenCell_other b rest1 hA hd.1 hd.2]
            simp [hd2]

-- Claim C8 -------------------------------------------------------------

/-- C8 counterexample: the input i-then-Z contains the byte Z, which is
outside the grammar, yet the parser succeeds (returning the I tree and
leaving the Z unread), so "every input stream that contains a byte
outside the grammar makes the parser fail" is false. -/
theorem claim_C8_counterexample :
    grammarByte 90 = false ∧ (90 : Nat) ∈ [105, 90] ∧
      parse [105, 90] = .ok (preCell .I, [90], initLog) :=
  ⟨by decide, by decide, rfl⟩

/-- C8 (amended): the parser reports a fatal error (a message on stderr
followed by exit code 1) and produces no expression tree exactly for
those inputs that do not begin with one complete expression of the
grammar — that is, when EOF or a byte outside the grammar is reached
while an expression is still owed; bytes after the leading expression
completes are not examined. -/
theorem claim_C8 (bs : List Nat) :
    ((∃ e, parse bs = .error e) ↔ completes bs = false) ∧
      ∀ e : PErr, perrExit e = 1 := by
  refine ⟨?_, fun e => rfl⟩
  have h := parseLoop_scan (bs.length + 1) bs [] initLog (by omega)
  simp only [List.countP_nil, Nat.zero_add] at h
  unfold parse completes
  constructor
  · rintro ⟨e, he⟩
    by_contra hc
    rw [Bool.not_eq_false] at hc
    obtain ⟨v, hv⟩ := h.mpr hc
    rw [he] at hv
    cases hv
  · intro hfalse
    cases hp : parseLoop (bs.length + 1) bs [] initLog with
    | error e => exact ⟨e, rfl⟩
    | ok v =>
      have htrue := h.mp ⟨v, hp⟩
      rw [htrue] at hfalse
      cases hfalse

-- Claim C3 -------------------------------------------------------------

/-- C3 counterexample: in the concrete state `c3State`, whose only
V-tagged cell is the shared old-generation singleton at address 524290,
applying the AT primitive at EOF produces a value cell at the freshly
bumped young address 6 — a newly allocated cell, not the shared V
singleton — so the claim that AT, QUES and PIPE hand out the shared
atomic cells is false. -/
theorem claim_C3_counterexample :
    (c3State.heap 524290).t = .V ∧ (c3State.heap 524288).t = .AT ∧
      c3State.free_ptr = 5 ∧
      (applyPrim c3State 524288).val = some 6 ∧
      ((applyPrim c3State 524288).heap 6).t = .V ∧
      ((applyPrim c3State 524288).heap 6).age = 0 ∧
      (6 : Nat) ≠ 524290 := by
  refine ⟨by decide, by decide, by decide, ?_, ?_, ?_, by decide⟩ <;> decide

/-- C3 (amended): each of the nine atomic combinator tags is allocated
exactly once, by the parser, in the old generation (age AGE_MAX + 1,
so `copy_cell` never moves such a cell); however, the I and V result
values produced by applying AT, QUES and PIPE are freshly allocated
cells at the just-bumped young address free_ptr + 1 — in particular
never a cell of the old generation, where the shared singletons live —
rather than the shared singleton cells. -/
theorem claim_C3 :
    (∀ (bs : List Nat) (tree : Cell) (rest : List Nat) (log : List Alloc),
      parse bs = .ok (tree, rest, log) →
        log.filter (fun ev => isAtomicTag ev.t) = initLog ∧
          ∀ ev ∈ log, ev.age = AGE_MAX + 1) ∧
      (∀ (s : RState) (op : Nat), (s.heap op).t = .AT →
        (applyPrim s op).val = some (s.free_ptr + 1) ∧
          ((applyPrim s op).heap (s.free_ptr + 1)).t =
            (if s.input = [] then CellType.V else CellType.I) ∧
          ((applyPrim s op).heap (s.free_ptr + 1)).age = 0 ∧
          ∀ x : Nat, s.young_area_end ≤ x →
            s.free_ptr + 1 < s.young_area_end →
            (applyPrim s op).val ≠ some x) ∧
      (∀ (s : RState) (op : Nat), (s.heap op).t = .QUES →
        (applyPrim s op).val = some (s.free_ptr + 1) ∧
          ((applyPrim s op).heap (s.free_ptr + 1)).t =
            (if s.current_ch = some (s.heap op).ch then CellType.I
             else CellType.V) ∧
          ((applyPrim s op).heap (s.free_ptr + 1)).age = 0 ∧
          ∀ x : Nat, s.young_area_end ≤ x →
            s.free_ptr + 1 < s.young_area_end →
            (applyPrim s op).val ≠ some x) ∧
      (∀ (s : RState) (op : Nat), (s.heap op).t = .PIPE →
        (applyPrim s op).val = some (s.free_ptr + 1) ∧
          ((applyPrim s op).heap (s.free_ptr + 1)).t =
            (if s.current_ch = none then CellType.V else CellType.DOT) ∧
          ((applyPrim s op).heap (s.free_ptr + 1)).age = 0 ∧
          ∀ x : Nat, s.young_area_end ≤ x →
            s.free_ptr + 1 < s.young_area_end →
            (applyPrim s op).val ≠ some x) ∧
      (∀ (gs : GCState) (x : Nat), (gs.heap x).t ≠ .COPIED →
        AGE_MAX < (gs.heap x).age →
        copy_cell gs (some x) = (gs, some x, none)) := by
  refine ⟨?_, ?_, ?_, ?_, ?_⟩
  · intro bs tree rest log hp
    obtain ⟨extra, he, hev⟩ := parseLoop_log (bs.length + 1) bs [] initLog
      tree rest log hp
    subst he
    constructor
    · rw [List.filter_append]
      have h1 : initLog.filter (fun ev => isAtomicTag ev.t) = initLog := by
        decide
      have h2 : extra.filter (fun ev => isAtomicTag ev.t) = [] := by
        rw [List.filter_eq_nil_iff]
        intro a ha
        simp [(hev a ha).1]
      rw [h1, h2, List.append_nil]
    · intro ev hmem
      have hini : ∀ ev2 ∈ initLog, ev2.age = AGE_MAX + 1 := by decide
      rcases List.mem_append.mp hmem with hm | hm
      · exact hini ev hm
      · exact (hev ev hm).2
  · intro s op hat
    simp only [applyPrim, hat]
    simp [upd]
    intro x hx1 hx2
    omega
  · intro s op hq
    simp only [applyPrim, hq]
    simp [upd]
    intro x hx1 hx2
    omega
  · intro s op hp
    simp only [applyPrim, hp]
    simp [upd]
    intro x hx1 hx2
    omega
  · intro gs x hcop hage
    simp [copy_cell, hcop, hage]

/-- Witness for C3: the parse of the one-atom program i, whose log is
exactly the nine singleton allocations, and the AT application of the
concrete state `c3State`. -/
theorem claim_C3_witness :
    (parse [105] = .ok (preCell .I, [], initLog) ∧
        (c3State.heap 524288).t = .AT) ∧
      (initLog.filter (fun ev => isAtomicTag ev.t) = initLog ∧
          ∀ ev ∈ initLog, ev.age = AGE_MAX + 1) ∧
        (applyPrim c3State 524288).val = some (c3State.free_ptr + 1) :=
  ⟨⟨rfl, by decide⟩,
    claim_C3.1 [105] (preCell .I) [] initLog rfl,
    (claim_C3.2.1 c3State 524288 (by decide)).1⟩

-- Storage-manager helper lemmas ----------------------------------------

/-- Event/counter bookkeeping between two storage states: the second
extends the first's ghost event log, and the major-collection counter
grew by exactly the number of new events whose check saw an empty free
list. -/
def EvOk (s s2 : GCState) : Prop :=
  ∃ new, s2.events = s.events ++ new ∧
    s2.major_gc_count =
      s.major_gc_count + (new.filter (fun e => e.1)).length

theorem EvOk_refl (s : GCState) : EvOk s s := ⟨[], by simp, by simp⟩

theorem EvOk_trans {s1 s2 s3 : GCState} (h1 : EvOk s1 s2)
    (h2 : EvOk s2 s3) : EvOk s1 s3 := by
  obtain ⟨n1, he1, hc1⟩ := h1
  obtain ⟨n2, he2, hc2⟩ := h2
  exact ⟨n1 ++ n2, by simp [he2, he1],
    by simp [hc2, hc1, List.filter_append, Nat.add_assoc]⟩

/-- `copy_cell` never touches the ghost log, the counters, or the old
cell list. -/
theorem copy_cell_ghost (s : GCState) (c : Option Nat) :
    (copy_cell s c).1.events = s.events ∧
      (copy_cell s c).1.major_gc_count = s.major_gc_count ∧
      (copy_cell s c).1.oldCells = s.oldCells := by
  cases c with
  | none => exact ⟨rfl, rfl, rfl⟩
  | some a =>
    unfold copy_cell
    dsimp only
    by_cases h1 : (s.heap a).t = .COPIED
    · rw [if_pos h1]; exact ⟨rfl, rfl, rfl⟩
    · rw [if_neg h1]
      by_cases h2 : AGE_MAX < (s.heap a).age
      · rw [if_pos h2]; exact ⟨rfl, rfl, rfl⟩
      · rw [if_neg h2]
        by_cases h3 : (s.heap a).age = AGE_MAX
        · rw [if_pos h3]
          cases s.free_list
          · exact ⟨rfl, rfl, rfl⟩
          · exact ⟨rfl, rfl, rfl⟩
        · rw [if_neg h3]; exact ⟨rfl, rfl, rfl⟩

/-- The grow loop leaves the event log alone, increments the major
counter exactly once on success, and never shrinks the old cell list. -/
theorem growLoop_ghost (fuel : Nat) : ∀ (s : GCState) (freed total : Nat),
    (growLoop fuel s freed total).2 = none →
    (growLoop fuel s freed total).1.events = s.events ∧
      (growLoop fuel s freed total).1.major_gc_count =
        s.major_gc_count + 1 ∧
      s.oldCells.length ≤ (growLoop fuel s freed total).1.oldCells.length := by
  induction fuel with
  | zero =>
    intro s freed total h
    unfold growLoop at h ⊢
    by_cases hc : freed < total / 5
    · rw [if_pos hc] at h; cases h
    · rw [if_neg hc]; exact ⟨rfl, rfl, Nat.le_refl _⟩
  | succ f ih =>
    intro s freed total h
    unfold growLoop at h ⊢
    by_cases hc : freed < total / 5
    · rw [if_pos hc] at h ⊢
      obtain ⟨h1, h2, h3⟩ := ih (grow s) (freed + HEAP_CHUNK_SIZE)
        (total + HEAP_CHUNK_SIZE) h
      refine ⟨h1, h2, ?_⟩
      have hgs : s.oldCells.length ≤ (grow s).oldCells.length := by
        simp [grow]
      omega
    · rw [if_neg hc]
      exact ⟨rfl, rfl, Nat.le_refl _⟩

/-- A successful major collection appends no ghost events, increments
the major counter exactly once, and never shrinks the old cell list. -/
theorem major_gc_ghost (fuel : Nat) (s : GCState) (roots : List (Option Nat))
    (h : (major_gc fuel s roots).2 = none) :
    (major_gc fuel s roots).1.events = s.events ∧
      (major_gc fuel s roots).1.major_gc_count = s.major_gc_count + 1 ∧
      s.oldCells.length ≤ (major_gc fuel s roots).1.oldCells.length := by
  unfold major_gc at h ⊢
  revert h
  cases hm : (mark fuel s.heap roots).2 with
  | some e2 =>
    intro h
    cases h
  | none =>
    intro h
    dsimp only at h ⊢
    exact growLoop_ghost fuel _ _ _ h

/-- A successful check site appends exactly one ghost event, whose first
component says whether the free list was empty, and bumps the major
counter exactly when it was. -/
theorem checkSite_ghost (fuel : Nat) (s : GCState)
    (roots : List (Option Nat)) (tg : Option Nat)
    (h : (checkSite fuel s roots tg).2 = none) :
    EvOk s (checkSite fuel s roots tg).1 ∧
      s.oldCells.length ≤ (checkSite fuel s roots tg).1.oldCells.length := by
  unfold checkSite at h ⊢
  by_cases hfl : s.free_list = none
  · rw [if_pos hfl] at h ⊢
    obtain ⟨h1, h2, h3⟩ := major_gc_ghost fuel _ roots h
    refine ⟨⟨[(true, promoNeeded s tg)], ?_, ?_⟩, by simpa using h3⟩
    · rw [h1]; simp [hfl]
    · rw [h2]; simp
  · have hfl2 : s.free_list.isNone = false := by
      cases hx : s.free_list
      · exact absurd hx hfl
      · rfl
    rw [if_neg hfl] at h ⊢
    exact ⟨⟨[(false, promoNeeded s tg)], by simp [hfl2], by simp⟩, by simp⟩

/-- The root loop respects the event/counter bookkeeping. -/
theorem rootsLoop_ghost (fuel : Nat) : ∀ (pending : List (Option Nat))
    (s : GCState) (done : List (Option Nat)),
    (rootsLoop fuel s done pending).2.2 = none →
    EvOk s (rootsLoop fuel s done pending).1 := by
  intro pending
  induction pending with
  | nil => intro s done h; exact EvOk_refl s
  | cons r rest ih =>
    intro s done h
    unfold rootsLoop at h ⊢
    dsimp only at h ⊢
    revert h
    cases hck : (checkSite fuel s (done ++ r :: rest) r).2 with
    | some e => intro h; cases h
    | none =>
      intro h
      dsimp only at h ⊢
      have hev1 := (checkSite_ghost fuel s (done ++ r :: rest) r hck).1
      cases r with
      | none => exact EvOk_trans hev1 (ih _ _ h)
      | some a =>
        dsimp only at h ⊢
        revert h
        cases hcp : (copy_cell
            (checkSite fuel s (done ++ some a :: rest) (some a)).1
            (some a)).2.2 with
        | some e => intro h; cases h
        | none =>
          intro h
          dsimp only at h ⊢
          have hg := copy_cell_ghost
            (checkSite fuel s (done ++ some a :: rest) (some a)).1 (some a)
          have hev2 : EvOk
              (checkSite fuel s (done ++ some a :: rest) (some a)).1
              (copy_cell
                (checkSite fuel s (done ++ some a :: rest) (some a)).1
                (some a)).1 :=
            ⟨[], by simp [hg.1], by simp [hg.2.1]⟩
          exact EvOk_trans hev1 (EvOk_trans hev2 (ih _ _ h))

/-- One scan iteration respects the event/counter bookkeeping. -/
theorem scanBody_ghost (fuel : Nat) (roots : List (Option Nat))
    (s : GCState) (scan : Nat)
    (h : (scanBody fuel roots s scan).2 = none) :
    EvOk s (scanBody fuel roots s scan).1 := by
  unfold scanBody at h ⊢
  dsimp only at h ⊢
  revert h
  cases hck : (checkSite fuel s roots (scanTarget s scan)).2 with
  | some e => intro h; cases h
  | none =>
    intro h
    dsimp only at h ⊢
    have hev1 := (checkSite_ghost fuel s roots (scanTarget s scan) hck).1
    set s1 := (checkSite fuel s roots (scanTarget s scan)).1 with hs1
    revert h
    cases hca : (if (s1.heap scan).t = .COPIED then (s1.heap scan).l
        else some scan) with
    | none => intro h; cases h
    | some ca =>
      intro h
      dsimp only at h ⊢
      by_cases hcop : (s1.heap ca).t = .COPIED
      · rw [if_pos hcop] at h; cases h
      · rw [if_neg hcop] at h ⊢
        by_cases hun : isUnaryTag (s1.heap ca).t = true
        · rw [if_pos hun] at h ⊢
          revert h
          cases hcp : (copy_cell s1 ((s1.heap ca).l)).2.2 with
          | some e => intro h; cases h
          | none =>
            intro h
            dsimp only at h ⊢
            have hg := copy_cell_ghost s1 ((s1.heap ca).l)
            exact EvOk_trans hev1 ⟨[], by simp [hg.1], by simp [hg.2.1]⟩
        · rw [if_neg hun] at h ⊢
          by_cases hbin : isBinaryTag (s1.heap ca).t = true
          · rw [if_pos hbin] at h ⊢
            revert h
            cases hcp : (copy_cell s1 ((s1.heap ca).l)).2.2 with
            | some e => intro h; cases h
            | none =>
              intro h
              dsimp only at h ⊢
              have hg := copy_cell_ghost s1 ((s1.heap ca).l)
              set s3 : GCState := { (copy_cell s1 ((s1.heap ca).l)).1 with
                heap := upd (copy_cell s1 ((s1.heap ca).l)).1.heap ca
                  { (copy_cell s1 ((s1.heap ca).l)).1.heap ca with
                    l := (copy_cell s1 ((s1.heap ca).l)).2.1 } } with hs3
              have hev2 : EvOk s1 s3 :=
                ⟨[], by simp [hs3, hg.1], by simp [hs3, hg.2.1]⟩
              revert h
              cases hck2 : (checkSite fuel s3 roots ((s3.heap ca).r)).2 with
              | some e => intro h; cases h
              | none =>
                intro h
                dsimp only at h ⊢
                have hev3 :=
                  (checkSite_ghost fuel s3 roots ((s3.heap ca).r) hck2).1
                set s4 := (checkSite fuel s3 roots ((s3.heap ca).r)).1
                  with hs4
                revert h
                cases hcp2 : (copy_cell s4 ((s4.heap ca).r)).2.2 with
                | some e => intro h; cases h
                | none =>
                  intro h
                  dsimp only at h ⊢
                  have hg2 := copy_cell_ghost s4 ((s4.heap ca).r)
                  have hev4 : EvOk s4 (copy_cell s4 ((s4.heap ca).r)).1 :=
                    ⟨[], by simp [hg2.1], by simp [hg2.2.1]⟩
                  exact EvOk_trans hev1 (EvOk_trans hev2
                    (EvOk_trans hev3 hev4))
          · rw [if_neg hbin] at h ⊢
            exact hev1

/-- The Cheney scan loop respects the event/counter bookkeeping. -/
theorem scanLoop_ghost (fuel : Nat) : ∀ (s : GCState)
    (roots : List (Option Nat)) (scan : Nat),
    (scanLoop fuel s roots scan).2.2 = none →
    EvOk s (scanLoop fuel s roots scan).1 := by
  induction fuel with
  | zero =>
    intro s roots scan h
    unfold scanLoop at h ⊢
    split at h
    · cases h
    · split
      · simp_all
      · exact EvOk_refl s
  | succ f ih =>
    intro s roots scan h
    unfold scanLoop at h ⊢
    by_cases hlt : scan < s.free_ptr
    · rw [if_pos hlt] at h ⊢
      dsimp only at h ⊢
      revert h
      cases hb : (scanBody f roots s scan).2 with
      | some e => intro h; cases h
      | none =>
        intro h
        dsimp only at h ⊢
        exact EvOk_trans (scanBody_ghost f roots s scan hb) (ih _ _ _ h)
    · rw [if_neg hlt] at h ⊢
      exact EvOk_refl s

-- Claim C6 -------------------------------------------------------------

/-- C6 counterexample: in the concrete state `c6State` no cell anywhere
has age AGE_MAX (so no copy can need promotion), yet running the minor
collection triggers a major collection: the ghost log records a check
site that saw an empty free list with a cell to copy that does not
need promotion, and the major-collection counter rises to 1.  This
refutes the claim that a major collection is triggered only at a copy
attempt whose cell needs promotion and that copying a cell not needing
promotion never triggers one. -/
theorem claim_C6_counterexample :
    (∀ a : Nat, (c6State.heap a).age ≠ AGE_MAX) ∧
      (gc_run 4 c6State [some 0]).1.events = [(true, false), (false, false)] ∧
      (gc_run 4 c6State [some 0]).1.major_gc_count = 1 ∧
      (gc_run 4 c6State [some 0]).2.2 = none :=
  ⟨by intro a; simp [c6State, dfltG, AGE_MAX], by decide, by decide,
    by decide⟩

/-- C6 (amended): during a minor collection a major collection is
triggered exactly at those check sites where the free list is empty,
whether or not the impending copy needs promotion: over any successful
`gc_run`, the major-collection counter grows by exactly the number of
ghost events that record an empty free list, with the promotion flag of
the event playing no role. -/
theorem claim_C6 (fuel : Nat) (s : GCState) (roots : List (Option Nat))
    (hok : (gc_run fuel s roots).2.2 = none) :
    ∃ new, (gc_run fuel s roots).1.events = s.events ++ new ∧
      (gc_run fuel s roots).1.major_gc_count =
        s.major_gc_count + (new.filter (fun e => e.1)).length := by
  unfold gc_run at hok ⊢
  dsimp only at hok ⊢
  set s0 := { s with
    free_ptr := s.next_young_area
    next_young_area := s.young_area_end - YOUNG_SIZE
    young_area_end := s.next_young_area + YOUNG_SIZE } with hs0
  revert hok
  cases hrl : (rootsLoop fuel s0 [] roots).2.2 with
  | some e => intro hok; cases hok
  | none =>
    intro hok
    dsimp only at hok ⊢
    have hev1 : EvOk s (rootsLoop fuel s0 [] roots).1 := by
      have := rootsLoop_ghost fuel roots s0 [] hrl
      obtain ⟨new, he, hc⟩ := this
      exact ⟨new, by rw [he], by rw [hc]⟩
    revert hok
    cases hsl : (scanLoop fuel (rootsLoop fuel s0 [] roots).1
        (rootsLoop fuel s0 [] roots).2.1 s0.free_ptr).2.2 with
    | some e => intro hok; cases hok
    | none =>
      intro hok
      dsimp only at hok ⊢
      have hev2 := scanLoop_ghost fuel (rootsLoop fuel s0 [] roots).1
        (rootsLoop fuel s0 [] roots).2.1 s0.free_ptr hsl
      obtain ⟨n3, he3, hc3⟩ := EvOk_trans hev1 hev2
      exact ⟨n3, by simpa using he3, by simpa using hc3⟩

/-- Witness for C6 at the concrete state `c6State`. -/
theorem claim_C6_witness :
    (gc_run 4 c6State [some 0]).2.2 = none ∧
      ∃ new, (gc_run 4 c6State [some 0]).1.events = c6State.events ++ new ∧
        (gc_run 4 c6State [some 0]).1.major_gc_count =
          c6State.major_gc_count + (new.filter (fun e => e.1)).length :=
  ⟨by decide, claim_C6 4 c6State [some 0] (by decide)⟩

-- Free-list lemmas for claim C10 ---------------------------------------

/-- With a non-empty free list, `copy_cell` cannot dereference a null
free-list head. -/
theorem copy_cell_fl (s : GCState) (c : Option Nat)
    (hfl : s.free_list ≠ none) : (copy_cell s c).2.2 = none := by
  cases c with
  | none => rfl
  | some a =>
    unfold copy_cell
    dsimp only
    by_cases h1 : (s.heap a).t = .COPIED
    · rw [if_pos h1]
    · rw [if_neg h1]
      by_cases h2 : AGE_MAX < (s.heap a).age
      · rw [if_pos h2]
      · rw [if_neg h2]
        by_cases h3 : (s.heap a).age = AGE_MAX
        · rw [if_pos h3]
          cases hx : s.free_list with
          | none => exact absurd hx hfl
          | some f2 => rfl
        · rw [if_neg h3]

/-- The mark worklist never reports a copy-time null dereference. -/
theorem markGo_err (fuel : Nat) : ∀ (c : Option Nat) (h : Nat → GCell)
    (stk : List (Option Nat)),
    (markGo fuel c h stk).2 ≠ some .copyNullDeref := by
  induction fuel with
  | zero => intro c h stk hx; cases hx
  | succ f ih =>
    intro c h stk
    cases c with
    | none =>
      unfold markGo
      cases stk with
      | nil => intro hx; cases hx
      | cons c2 rest => exact ih c2 h rest
    | some a =>
      unfold markGo
      by_cases hm : (h a).marked = true
      · rw [if_pos hm]
        cases stk with
        | nil => intro hx; cases hx
        | cons c2 rest => exact ih c2 h rest
      · rw [if_neg hm]
        cases hres : targetOf h a with
        | none => intro hx; cases hx
        | some tg =>
          dsimp only
          by_cases hu : isUnaryTag
              ((upd h tg { h tg with marked := true }) tg).t = true
          · rw [if_pos hu]
            exact ih _ _ _
          · rw [if_neg hu]
            by_cases hb : isBinaryTag
                ((upd h tg { h tg with marked := true }) tg).t = true
            · rw [if_pos hb]
              exact ih _ _ _
            · rw [if_neg hb]
              cases stk with
              | nil => intro hx; cases hx
              | cons c2 rest => exact ih c2 _ rest

/-- The grow loop can only fail with fuel exhaustion. -/
theorem growLoop_err (fuel : Nat) : ∀ (s : GCState) (freed total : Nat),
    (growLoop fuel s freed total).2 ≠ some .copyNullDeref := by
  induction fuel with
  | zero =>
    intro s freed total
    unfold growLoop
    by_cases hc : freed < total / 5
    · rw [if_pos hc]; intro hx; cases hx
    · rw [if_neg hc]; intro hx; cases hx
  | succ f ih =>
    intro s freed total
    unfold growLoop
    by_cases hc : freed < total / 5
    · rw [if_pos hc]; exact ih _ _ _
    · rw [if_neg hc]; intro hx; cases hx

/-- A major collection never reports a copy-time null dereference. -/
theorem major_gc_err (fuel : Nat) (s : GCState) (roots : List (Option Nat)) :
    (major_gc fuel s roots).2 ≠ some .copyNullDeref := by
  unfold major_gc
  cases hm : (mark fuel s.heap roots).2 with
  | some e =>
    dsimp only
    intro hx
    injection hx with hx2
    subst hx2
    exact markGo_err fuel none s.heap roots.reverse (by
      show (markGo fuel none s.heap roots.reverse).2 = some .copyNullDeref
      exact hm)
  | none =>
    dsimp only
    exact growLoop_err fuel _ _ _

/-- A check site never reports a copy-time null dereference. -/
theorem checkSite_err (fuel : Nat) (s : GCState) (roots : List (Option Nat))
    (tg : Option Nat) :
    (checkSite fuel s roots tg).2 ≠ some .copyNullDeref := by
  unfold checkSite
  by_cases hfl : s.free_list = none
  · rw [if_pos hfl]
    exact major_gc_err fuel _ roots
  · rw [if_neg hfl]
    intro hx; cases hx

/-- The sweep fold hands back a non-empty free list whenever it freed at
least one cell. -/
theorem sweep_fl (olds : List Nat) :
    ∀ acc : (Nat → GCell) × Option Nat × Nat,
      (1 ≤ acc.2.2 → ∃ x, acc.2.1 = some x) →
      (1 ≤ (olds.foldl sweepStep acc).2.2 →
        ∃ x, (olds.foldl sweepStep acc).2.1 = some x) := by
  induction olds with
  | nil => intro acc hacc; exact hacc
  | cons a rest ih =>
    intro acc hacc
    apply ih
    obtain ⟨h0, fl0, fr0⟩ := acc
    unfold sweepStep
    dsimp only
    by_cases hm : (h0 a).marked = true
    · rw [if_pos hm]; exact hacc
    · rw [if_neg hm]
      intro _
      exact ⟨a, rfl⟩

/-- The grow loop hands back either the free list it was given (having
looped zero times) or a freshly grown, non-empty one. -/
theorem growLoop_fl (fuel : Nat) : ∀ (s : GCState) (freed total : Nat),
    (growLoop fuel s freed total).2 = none →
    ((growLoop fuel s freed total).1.free_list = s.free_list ∧
        ¬ freed < total / 5) ∨
      (growLoop fuel s freed total).1.free_list ≠ none := by
  induction fuel with
  | zero =>
    intro s freed total h
    unfold growLoop at h ⊢
    by_cases hc : freed < total / 5
    · rw [if_pos hc] at h; cases h
    · rw [if_neg hc]; exact .inl ⟨rfl, hc⟩
  | succ f ih =>
    intro s freed total h
    unfold growLoop at h ⊢
    by_cases hc : freed < total / 5
    · rw [if_pos hc] at h ⊢
      rcases ih (grow s) (freed + HEAP_CHUNK_SIZE) (total + HEAP_CHUNK_SIZE)
          h with ⟨hfl, _⟩ | hne
      · refine .inr ?_
        rw [hfl]
        intro hx
        simp [grow] at hx
      · exact .inr hne
    · rw [if_neg hc]; exact .inl ⟨rfl, hc⟩

/-- After a successful major collection in a state with at least five
old cells, the free list is non-empty: either the sweep freed at least
a fifth of the (at least five) old cells, or the grow loop appended a
fresh chunk. -/
theorem major_gc_fl (fuel : Nat) (s : GCState) (roots : List (Option Nat))
    (hold : 5 ≤ s.oldCells.length)
    (h : (major_gc fuel s roots).2 = none) :
    (major_gc fuel s roots).1.free_list ≠ none := by
  unfold major_gc at h ⊢
  revert h
  cases hm : (mark fuel s.heap roots).2 with
  | some e => intro h; cases h
  | none =>
    intro h
    dsimp only at h ⊢
    rcases growLoop_fl fuel _ _ _ h with ⟨hfl, hnlt⟩ | hne
    · rw [hfl]
      dsimp only
      have hfreed : 1 ≤ (List.foldl sweepStep
          ((mark fuel s.heap roots).1, s.free_list, 0) s.oldCells).2.2 := by
        have h5 : 1 ≤ s.oldCells.length / 5 := by omega
        omega
      obtain ⟨x, hx⟩ := sweep_fl s.oldCells
        ((mark fuel s.heap roots).1, s.free_list, 0)
        (by intro hx; simp at hx) hfreed
      rw [hx]
      intro hy; cases hy
    · exact hne

/-- After a successful check site in a state with at least five old
cells, the free list is non-empty and the old-cell count is
preserved. -/
theorem checkSite_fl (fuel : Nat) (s : GCState) (roots : List (Option Nat))
    (tg : Option Nat) (hold : 5 ≤ s.oldCells.length)
    (h : (checkSite fuel s roots tg).2 = none) :
    (checkSite fuel s roots tg).1.free_list ≠ none ∧
      5 ≤ (checkSite fuel s roots tg).1.oldCells.length := by
  have hg := checkSite_ghost fuel s roots tg h
  refine ⟨?_, by omega⟩
  unfold checkSite at h ⊢
  by_cases hfl : s.free_list = none
  · rw [if_pos hfl] at h ⊢
    exact major_gc_fl fuel _ roots (by simpa using hold) h
  · rw [if_neg hfl] at h ⊢
    exact hfl

/-- The root loop never reports a copy-time null dereference, and on
success preserves the old-cell bound: every `copy_cell` call is guarded
by a free-list check that, via a major collection if needed, guarantees
a non-empty free list. -/
theorem rootsLoop_noNull (fuel : Nat) : ∀ (pending : List (Option Nat))
    (s : GCState) (done : List (Option Nat)), 5 ≤ s.oldCells.length →
    (rootsLoop fuel s done pending).2.2 ≠ some .copyNullDeref ∧
      ((rootsLoop fuel s done pending).2.2 = none →
        5 ≤ (rootsLoop fuel s done pending).1.oldCells.length) := by
  intro pending
  induction pending with
  | nil =>
    intro s done hold
    exact ⟨(by intro hx; cases hx), fun _ => hold⟩
  | cons r rest ih =>
    intro s done hold
    unfold rootsLoop
    dsimp only
    cases hck : (checkSite fuel s (done ++ r :: rest) r).2 with
    | some e =>
      refine ⟨?_, ?_⟩
      · intro hx
        injection hx with hx2
        rw [hx2] at hck
        exact checkSite_err fuel s (done ++ r :: rest) r hck
      · intro hx; cases hx
    | none =>
      dsimp only
      have hfl := checkSite_fl fuel s (done ++ r :: rest) r hold hck
      cases r with
      | none => exact ih _ _ hfl.2
      | some a =>
        dsimp only
        have hcp := copy_cell_fl (checkSite fuel s
          (done ++ some a :: rest) (some a)).1 (some a) hfl.1
        rw [hcp]
        have hg := copy_cell_ghost (checkSite fuel s
          (done ++ some a :: rest) (some a)).1 (some a)
        apply ih
        rw [hg.2.2]
        exact hfl.2

/-- One scan iteration never reports a copy-time null dereference, and
on success preserves the old-cell bound. -/
theorem scanBody_noNull (fuel : Nat) (roots : List (Option Nat))
    (s : GCState) (scan : Nat) (hold : 5 ≤ s.oldCells.length) :
    (scanBody fuel roots s scan).2 ≠ some .copyNullDeref ∧
      ((scanBody fuel roots s scan).2 = none →
        5 ≤ (scanBody fuel roots s scan).1.oldCells.length) := by
  unfold scanBody
  dsimp only
  cases hck : (checkSite fuel s roots (scanTarget s scan)).2 with
  | some e =>
    refine ⟨?_, ?_⟩
    · intro hx
      injection hx with hx2
      rw [hx2] at hck
      exact checkSite_err fuel s roots (scanTarget s scan) hck
    · intro hx; cases hx
  | none =>
    dsimp only
    have hfl := checkSite_fl fuel s roots (scanTarget s scan) hold hck
    set s1 := (checkSite fuel s roots (scanTarget s scan)).1 with hs1
    cases hca : (if (s1.heap scan).t = .COPIED then (s1.heap scan).l
        else some scan) with
    | none => exact ⟨(by intro hx; cases hx), (by intro hx; cases hx)⟩
    | some ca =>
      dsimp only
      by_cases hcop : (s1.heap ca).t = .COPIED
      · rw [if_pos hcop]
        exact ⟨(by intro hx; cases hx), (by intro hx; cases hx)⟩
      · rw [if_neg hcop]
        by_cases hun : isUnaryTag (s1.heap ca).t = true
        · rw [if_pos hun]
          have hcp := copy_cell_fl s1 ((s1.heap ca).l) hfl.1
          rw [hcp]
          have hg := copy_cell_ghost s1 ((s1.heap ca).l)
          refine ⟨(by intro hx; cases hx), fun _ => ?_⟩
          show 5 ≤ (copy_cell s1 ((s1.heap ca).l)).1.oldCells.length
          rw [hg.2.2]
          exact hfl.2
        · rw [if_neg hun]
          by_cases hbin : isBinaryTag (s1.heap ca).t = true
          · rw [if_pos hbin]
            have hcp := copy_cell_fl s1 ((s1.heap ca).l) hfl.1
            rw [hcp]
            dsimp only
            have hg := copy_cell_ghost s1 ((s1.heap ca).l)
            set s3 : GCState := { (copy_cell s1 ((s1.heap ca).l)).1 with
              heap := upd (copy_cell s1 ((s1.heap ca).l)).1.heap ca
                { (copy_cell s1 ((s1.heap ca).l)).1.heap ca with
                  l := (copy_cell s1 ((s1.heap ca).l)).2.1 } } with hs3
            have hold3 : 5 ≤ s3.oldCells.length := by
              rw [hs3]
              show 5 ≤ (copy_cell s1 ((s1.heap ca).l)).1.oldCells.length
              rw [hg.2.2]
              exact hfl.2
            cases hck2 : (checkSite fuel s3 roots ((s3.heap ca).r)).2 with
            | some e =>
              refine ⟨?_, ?_⟩
              · intro hx
                injection hx with hx2
                rw [hx2] at hck2
                exact checkSite_err fuel s3 roots ((s3.heap ca).r) hck2
              · intro hx; cases hx
            | none =>
              dsimp only
              have hfl2 := checkSite_fl fuel s3 roots ((s3.heap ca).r)
                hold3 hck2
              set s4 := (checkSite fuel s3 roots ((s3.heap ca).r)).1 with hs4
              have hcp2 := copy_cell_fl s4 ((s4.heap ca).r) hfl2.1
              rw [hcp2]
              have hg2 := copy_cell_ghost s4 ((s4.heap ca).r)
              refine ⟨(by intro hx; cases hx), fun _ => ?_⟩
              show 5 ≤ (copy_cell s4 ((s4.heap ca).r)).1.oldCells.length
              rw [hg2.2.2]
              exact hfl2.2
          · rw [if_neg hbin]
            exact ⟨(by intro hx; cases hx), fun _ => hfl.2⟩

/-- The scan loop never reports a copy-time null dereference. -/
theorem scanLoop_noNull (fuel : Nat) : ∀ (s : GCState)
    (roots : List (Option Nat)) (scan : Nat), 5 ≤ s.oldCells.length →
    (scanLoop fuel s roots scan).2.2 ≠ some .copyNullDeref := by
  induction fuel with
  | zero =>
    intro s roots scan _
    unfold scanLoop
    by_cases hlt : scan < s.free_ptr
    · rw [if_pos hlt]; intro hx; cases hx
    · rw [if_neg hlt]; intro hx; cases hx
  | succ f ih =>
    intro s roots scan hold
    unfold scanLoop
    by_cases hlt : scan < s.free_ptr
    · rw [if_pos hlt]
      dsimp only
      cases hb : (scanBody f roots s scan).2 with
      | some e =>
        intro hx
        injection hx with hx2
        rw [hx2] at hb
        exact (scanBody_noNull f roots s scan hold).1 hb
      | none =>
        exact ih _ _ _ ((scanBody_noNull f roots s scan hold).2 hb)
    · rw [if_neg hlt]; intro hx; cases hx

-- Claim C10 ------------------------------------------------------------

/-- C10: in any storage state whose old generation holds at least five
cells (one chunk of the real program is 262143), a minor collection can
never reach the promotion branch of `copy_cell` with an empty free
list: the free-list checks before each root copy and before each child
copy re-establish, through a major collection whose sweep or growth
leaves the free list populated, that the list is non-empty before every
copy, so the null dereference `free_list->l` is unreachable. -/
theorem claim_C10 (fuel : Nat) (s : GCState) (roots : List (Option Nat))
    (hold : 5 ≤ s.oldCells.length) :
    (gc_run fuel s roots).2.2 ≠ some .copyNullDeref := by
  unfold gc_run
  dsimp only
  set s0 := { s with
    free_ptr := s.next_young_area
    next_young_area := s.young_area_end - YOUNG_SIZE
    young_area_end := s.next_young_area + YOUNG_SIZE } with hs0
  have hold0 : 5 ≤ s0.oldCells.length := by rw [hs0]; exact hold
  cases hrl : (rootsLoop fuel s0 [] roots).2.2 with
  | some e =>
    intro hx
    injection hx with hx2
    rw [hx2] at hrl
    exact (rootsLoop_noNull fuel roots s0 [] hold0).1 hrl
  | none =>
    dsimp only
    have hold1 := (rootsLoop_noNull fuel roots s0 [] hold0).2 hrl
    cases hsl : (scanLoop fuel (rootsLoop fuel s0 [] roots).1
        (rootsLoop fuel s0 [] roots).2.1 s0.free_ptr).2.2 with
    | some e =>
      intro hx
      injection hx with hx2
      rw [hx2] at hsl
      exact scanLoop_noNull fuel (rootsLoop fuel s0 [] roots).1
        (rootsLoop fuel s0 [] roots).2.1 s0.free_ptr hold1 hsl
    | none =>
      intro hx; cases hx

/-- Witness for C10 at the concrete state `c10State`, which has five old
cells. -/
theorem claim_C10_witness :
    5 ≤ c10State.oldCells.length ∧
      (gc_run 3 c10State [some 0]).2.2 ≠ some .copyNullDeref :=
  ⟨by decide, claim_C10 3 c10State [some 0] (by decide)⟩

-- C7 development -------------------------------------------------------

theorem upd_marked_fields (h : Nat → GCell) (tg x : Nat) :
    ((upd h tg { h tg with marked := true }) x).t = (h x).t ∧
      ((upd h tg { h tg with marked := true }) x).l = (h x).l ∧
      ((upd h tg { h tg with marked := true }) x).r = (h x).r := by
  unfold upd
  by_cases hx : x = tg
  · subst hx; simp
  · simp [hx]

theorem childRefs_upd_marked (h : Nat → GCell) (tg x : Nat) :
    childRefs ((upd h tg { h tg with marked := true }) x) =
      childRefs (h x) := by
  obtain ⟨h1, h2, h3⟩ := upd_marked_fields h tg x
  unfold childRefs
  rw [h1, h2, h3]

theorem targetOf_upd_marked (h : Nat → GCell) (tg x : Nat) :
    targetOf (upd h tg { h tg with marked := true }) x = targetOf h x := by
  obtain ⟨h1, h2, _⟩ := upd_marked_fields h tg x
  unfold targetOf
  rw [h1, h2]

theorem WFr_upd_marked (h : Nat → GCell) (rank : Nat → Nat) (tg : Nat)
    (hwf : WFr h rank) : WFr (upd h tg { h tg with marked := true }) rank := by
  intro a
  obtain ⟨f1, f2, _⟩ := upd_marked_fields h tg a
  constructor
  · intro hcop
    rw [f1] at hcop
    obtain ⟨b, hb1, hb2, hb3⟩ := (hwf a).1 hcop
    exact ⟨b, by rw [f2]; exact hb1,
      by rw [(upd_marked_fields h tg b).1]; exact hb2, hb3⟩
  · intro hncop b hb
    rw [f1] at hncop
    rw [childRefs_upd_marked h tg a] at hb
    exact (hwf a).2 hncop b hb

theorem wOf_le (rank : Nat → Nat) (h : Nat → GCell) (tg : Nat)
    (hncop : (h tg).t ≠ .COPIED) (hwf : WFr h rank)
    (cr : Option Nat) (hcr : cr ∈ childRefs (h tg)) :
    wOf rank cr ≤ 3 ^ rank tg := by
  cases cr with
  | none =>
    show 1 ≤ 3 ^ rank tg
    exact Nat.one_le_pow _ _ (by omega)
  | some b =>
    show 3 ^ (rank b + 1) ≤ 3 ^ rank tg
    have hlt : rank b < rank tg := (hwf tg).2 hncop b hcr
    exact Nat.pow_le_pow_right (by omega) (by omega)

theorem markGo_term (fuel : Nat) : ∀ (c : Option Nat) (h : Nat → GCell)
    (stk : List (Option Nat)) (rank : Nat → Nat), WFr h rank →
    MOf rank (c :: stk) < fuel → (markGo fuel c h stk).2 = none := by
  induction fuel with
  | zero => intro c h stk rank _ hm; omega
  | succ f ih =>
    intro c h stk rank hwf hm
    have h3pos : ∀ r : Nat, 1 ≤ 3 ^ r := fun r => Nat.one_le_pow _ _ (by omega)
    cases c with
    | none =>
      unfold markGo
      cases stk with
      | nil => rfl
      | cons c2 rest =>
        apply ih c2 h rest rank hwf
        simp only [MOf, List.map_cons, List.sum_cons, wOf] at hm ⊢
        omega
    | some a =>
      unfold markGo
      by_cases hmk : (h a).marked = true
      · rw [if_pos hmk]
        cases stk with
        | nil => rfl
        | cons c2 rest =>
          apply ih c2 h rest rank hwf
          simp only [MOf, List.map_cons, List.sum_cons, wOf] at hm ⊢
          have := h3pos (rank a + 1)
          omega
      · rw [if_neg hmk]
        have htg : ∃ tg, targetOf h a = some tg ∧ (h tg).t ≠ .COPIED ∧
            rank tg = rank a := by
          unfold targetOf
          by_cases hcop : (h a).t = .COPIED
          · rw [if_pos hcop]
            obtain ⟨b, hb1, hb2, hb3⟩ := (hwf a).1 hcop
            exact ⟨b, hb1, hb2, hb3⟩
          · rw [if_neg hcop]
            exact ⟨a, rfl, hcop, rfl⟩
        obtain ⟨tg, htg1, htg2, htg3⟩ := htg
        rw [htg1]
        dsimp only
        have hwf1 := WFr_upd_marked h rank tg hwf
        obtain ⟨f1, f2, f3⟩ := upd_marked_fields h tg tg
        have hMa : MOf rank (some a :: stk) =
            3 ^ (rank a + 1) + MOf rank stk := by
          simp [MOf, wOf]
        by_cases hun : isUnaryTag ((upd h tg { h tg with marked := true })
            tg).t = true
        · rw [if_pos hun]
          apply ih _ _ _ rank hwf1
          have hwc : wOf rank ((upd h tg { h tg with marked := true }) tg).l
              ≤ 3 ^ rank tg := by
            rw [f2]
            apply wOf_le rank h tg htg2 hwf
            rw [f1] at hun
            simp [childRefs, hun]
          have h1 : MOf rank (((upd h tg { h tg with marked := true })
              tg).l :: stk) = wOf rank ((upd h tg
              { h tg with marked := true }) tg).l + MOf rank stk := by
            simp [MOf]
          rw [h1]
          have h3 := h3pos (rank a)
          have hpow : 3 ^ (rank a + 1) = 3 * 3 ^ rank a := by ring
          rw [htg3] at hwc
          omega
        · rw [if_neg hun]
          by_cases hbn : isBinaryTag ((upd h tg { h tg with marked := true })
              tg).t = true
          · rw [if_pos hbn]
            apply ih _ _ _ rank hwf1
            have hcrs : childRefs (h tg) = [(h tg).l, (h tg).r] := by
              rw [f1] at hun hbn
              rw [Bool.not_eq_true] at hun
              simp [childRefs, hbn, hun]
            have hwl : wOf rank ((upd h tg { h tg with marked := true })
                tg).l ≤ 3 ^ rank tg := by
              rw [f2]
              apply wOf_le rank h tg htg2 hwf
              rw [hcrs]; simp
            have hwr : wOf rank ((upd h tg { h tg with marked := true })
                tg).r ≤ 3 ^ rank tg := by
              rw [f3]
              apply wOf_le rank h tg htg2 hwf
              rw [hcrs]; simp
            have h1 : MOf rank (((upd h tg { h tg with marked := true })
                tg).l :: ((upd h tg { h tg with marked := true }) tg).r ::
                stk) = wOf rank ((upd h tg { h tg with marked := true })
                tg).l + (wOf rank ((upd h tg
                { h tg with marked := true }) tg).r + MOf rank stk) := by
              simp [MOf]
            rw [h1]
            have h3 := h3pos (rank a)
            have hpow : 3 ^ (rank a + 1) = 3 * 3 ^ rank a := by ring
            rw [htg3] at hwl hwr
            omega
          · rw [if_neg hbn]
            cases stk with
            | nil => rfl
            | cons c2 rest =>
              apply ih c2 _ rest rank hwf1
              simp only [MOf, List.map_cons, List.sum_cons, wOf] at hm ⊢
              have := h3pos (rank a + 1)
              omega

theorem marked_upd_mono (h : Nat → GCell) (tg x : Nat)
    (hx : (h x).marked = true) :
    ((upd h tg { h tg with marked := true }) x).marked = true := by
  unfold upd
  by_cases he : x = tg
  · subst he; simp
  · simp [he, hx]

theorem NDF_upd_marked (h : Nat → GCell) (tg : Nat) (hn : NDF h) :
    NDF (upd h tg { h tg with marked := true }) := by
  intro a hcop b hb
  rw [(upd_marked_fields h tg a).1] at hcop
  rw [(upd_marked_fields h tg a).2.1] at hb
  rw [(upd_marked_fields h tg b).1]
  exact hn a hcop b hb

theorem MInv_upd_marked (h : Nat → GCell) (tg : Nat) (hm : MInv h)
    (htg : (h tg).t ≠ .COPIED) :
    MInv (upd h tg { h tg with marked := true }) := by
  intro a ha
  rw [(upd_marked_fields h tg a).1]
  by_cases he : a = tg
  · subst he; exact htg
  · apply hm
    unfold upd at ha
    rw [if_neg he] at ha
    exact ha

theorem handled_congr (h hf : Nat → GCell) (tg : Nat) (c : Option Nat) :
    handled (upd h tg { h tg with marked := true }) hf c ↔ handled h hf c := by
  unfold handled
  constructor
  · intro hx a tg2 hc htg2
    exact hx a tg2 hc (by rw [targetOf_upd_marked]; exact htg2)
  · intro hx a tg2 hc htg2
    rw [targetOf_upd_marked] at htg2
    exact hx a tg2 hc htg2

theorem markGo_mono (fuel : Nat) : ∀ (c : Option Nat) (h : Nat → GCell)
    (stk : List (Option Nat)) (x : Nat),
    ((markGo fuel c h stk).1 x).t = (h x).t ∧
      ((markGo fuel c h stk).1 x).l = (h x).l ∧
      ((markGo fuel c h stk).1 x).r = (h x).r ∧
      ((h x).marked = true → ((markGo fuel c h stk).1 x).marked = true) := by
  induction fuel with
  | zero => intro c h stk x; exact ⟨rfl, rfl, rfl, fun hx => hx⟩
  | succ f ih =>
    intro c h stk x
    cases c with
    | none =>
      unfold markGo
      cases stk with
      | nil => exact ⟨rfl, rfl, rfl, fun hx => hx⟩
      | cons c2 rest => exact ih c2 h rest x
    | some a =>
      unfold markGo
      by_cases hmk : (h a).marked = true
      · rw [if_pos hmk]
        cases stk with
        | nil => exact ⟨rfl, rfl, rfl, fun hx => hx⟩
        | cons c2 rest => exact ih c2 h rest x
      · rw [if_neg hmk]
        cases htg : targetOf h a with
        | none => exact ⟨rfl, rfl, rfl, fun hx => hx⟩
        | some tg =>
          dsimp only
          have hu := upd_marked_fields h tg x
          have hum := marked_upd_mono h tg x
          by_cases hun : isUnaryTag ((upd h tg
              { h tg with marked := true }) tg).t = true
          · rw [if_pos hun]
            obtain ⟨m1, m2, m3, m4⟩ := ih ((upd h tg
              { h tg with marked := true }) tg).l
              (upd h tg { h tg with marked := true }) stk x
            exact ⟨m1.trans hu.1, m2.trans hu.2.1, m3.trans hu.2.2,
              fun hx => m4 (hum hx)⟩
          · rw [if_neg hun]
            by_cases hbn : isBinaryTag ((upd h tg
                { h tg with marked := true }) tg).t = true
            · rw [if_pos hbn]
              obtain ⟨m1, m2, m3, m4⟩ := ih ((upd h tg
                { h tg with marked := true }) tg).l
                (upd h tg { h tg with marked := true })
                (((upd h tg { h tg with marked := true }) tg).r :: stk) x
              exact ⟨m1.trans hu.1, m2.trans hu.2.1, m3.trans hu.2.2,
                fun hx => m4 (hum hx)⟩
            · rw [if_neg hbn]
              cases stk with
              | nil => exact ⟨hu.1, hu.2.1, hu.2.2, hum⟩
              | cons c2 rest =>
                obtain ⟨m1, m2, m3, m4⟩ := ih c2
                  (upd h tg { h tg with marked := true }) rest x
                exact ⟨m1.trans hu.1, m2.trans hu.2.1, m3.trans hu.2.2,
                  fun hx => m4 (hum hx)⟩

theorem unary_not_binary (t : CellType) :
    isUnaryTag t = true → isBinaryTag t = false := by
  cases t <;> decide

theorem childRefs_of_unary (c : GCell) (hu : isUnaryTag c.t = true) :
    childRefs c = [c.l] := by
  simp [childRefs, hu]

theorem childRefs_of_binary (c : GCell) (hb : isBinaryTag c.t = true) :
    childRefs c = [c.l, c.r] := by
  have hu : isUnaryTag c.t = false := by
    by_cases hx : isUnaryTag c.t = true
    · rw [unary_not_binary c.t hx] at hb; cases hb
    · exact Bool.not_eq_true _ |>.mp hx
  simp [childRefs, hu, hb]

theorem childRefs_of_leaf (c : GCell) (hu : isUnaryTag c.t = false)
    (hb : isBinaryTag c.t = false) : childRefs c = [] := by
  simp [childRefs, hu, hb]

theorem targetOf_ncop (h : Nat → GCell) (hn : NDF h) (a tg : Nat)
    (htg : targetOf h a = some tg) : (h tg).t ≠ .COPIED := by
  unfold targetOf at htg
  by_cases hcop : (h a).t = .COPIED
  · rw [if_pos hcop] at htg
    exact hn a hcop tg htg
  · rw [if_neg hcop] at htg
    injection htg with he
    subst he
    exact hcop

theorem upd_marked_self (h : Nat → GCell) (tg : Nat) :
    ((upd h tg { h tg with marked := true }) tg).marked = true := by
  unfold upd
  simp

theorem upd_marked_other (h : Nat → GCell) (tg x : Nat) (hx : x ≠ tg) :
    ((upd h tg { h tg with marked := true }) x).marked = (h x).marked := by
  unfold upd
  rw [if_neg hx]

theorem markGo_complete (fuel : Nat) : ∀ (c : Option Nat) (h : Nat → GCell)
    (stk : List (Option Nat)) (hf : Nat → GCell), NDF h → MInv h →
    markGo fuel c h stk = (hf, none) →
    (handled h hf c ∧ ∀ e ∈ stk, handled h hf e) ∧
      ∀ x, (hf x).marked = true → (h x).marked = true ∨
        ∀ cr ∈ childRefs (h x), handled h hf cr := by
  induction fuel with
  | zero =>
    intro c h stk hf _ _ heq
    unfold markGo at heq
    have h2 := congrArg Prod.snd heq
    simp at h2
  | succ f ih =>
    intro c h stk hf hndf hminv heq
    cases c with
    | none =>
      unfold markGo at heq
      cases stk with
      | nil =>
        have h1 := congrArg Prod.fst heq
        simp at h1
        subst h1
        refine ⟨⟨(fun a tg hca => by cases hca), (fun e he => by cases he)⟩, ?_⟩
        exact fun x hx => .inl hx
      | cons c2 rest =>
        obtain ⟨⟨hc2, hrest⟩, hC⟩ := ih c2 h rest hf hndf hminv heq
        refine ⟨⟨(fun a tg hca => by cases hca), ?_⟩, hC⟩
        intro e he
        cases he with
        | head => exact hc2
        | tail _ hm => exact hrest e hm
    | some a =>
      unfold markGo at heq
      by_cases hmk : (h a).marked = true
      · rw [if_pos hmk] at heq
        have hta : targetOf h a = some a := by
          unfold targetOf
          rw [if_neg (hminv a hmk)]
        cases stk with
        | nil =>
          have h1 := congrArg Prod.fst heq
          simp at h1
          subst h1
          refine ⟨⟨?_, fun e he => by cases he⟩, fun x hx => .inl hx⟩
          intro a2 tg hca htg
          injection hca with hca2
          subst hca2
          rw [hta] at htg
          injection htg with htg2
          subst htg2
          exact hmk
        | cons c2 rest =>
          obtain ⟨⟨hc2, hrest⟩, hC⟩ := ih c2 h rest hf hndf hminv heq
          have hpf := congrArg Prod.fst heq
          refine ⟨⟨?_, ?_⟩, hC⟩
          · intro a2 tg hca htg
            injection hca with hca2
            subst hca2
            rw [hta] at htg
            injection htg with htg2
            subst htg2
            have hmono := (markGo_mono f c2 h rest a).2.2.2 hmk
            rw [hpf] at hmono
            exact hmono
          · intro e he
            cases he with
            | head => exact hc2
            | tail _ hm => exact hrest e hm
      · rw [if_neg hmk] at heq
        cases htg : targetOf h a with
        | none =>
          rw [htg] at heq
          have h2 := congrArg Prod.snd heq
          simp at h2
        | some tg =>
          rw [htg] at heq
          dsimp only at heq
          have htgn : (h tg).t ≠ .COPIED := targetOf_ncop h hndf a tg htg
          have hndf1 := NDF_upd_marked h tg hndf
          have hminv1 := MInv_upd_marked h tg hminv htgn
          have hmktg := upd_marked_self h tg
          have hfld := upd_marked_fields h tg tg
          -- `handled h hf (some a)` will follow once `(hf tg).marked`
          have hBofMark : (hf tg).marked = true →
              handled h hf (some a) := by
            intro hfm a2 tg2 hca htg2
            injection hca with hca2
            subst hca2
            rw [htg] at htg2
            injection htg2 with htg3
            subst htg3
            exact hfm
          by_cases hun : isUnaryTag ((upd h tg
              { h tg with marked := true }) tg).t = true
          · rw [if_pos hun] at heq
            obtain ⟨⟨hch, hstk⟩, hC1⟩ := ih _ _ stk hf hndf1 hminv1 heq
            have hpf := congrArg Prod.fst heq
            have hfm : (hf tg).marked = true := by
              have hmono := (markGo_mono f
                ((upd h tg { h tg with marked := true }) tg).l
                (upd h tg { h tg with marked := true }) stk tg).2.2.2 hmktg
              rw [hpf] at hmono
              exact hmono
            refine ⟨⟨hBofMark hfm, ?_⟩, ?_⟩
            · intro e he
              exact (handled_congr h hf tg e).mp (hstk e he)
            · intro x hx
              rcases hC1 x hx with hm1 | hcr
              · by_cases hxtg : x = tg
                · subst hxtg
                  by_cases hmh : (h x).marked = true
                  · exact .inl hmh
                  · refine .inr ?_
                    rw [childRefs_of_unary (h x) (by rw [← hfld.1]; exact hun)]
                    intro cr hcr2
                    rw [List.mem_singleton] at hcr2
                    subst hcr2
                    have := (handled_congr h hf x _).mp hch
                    rw [hfld.2.1] at this
                    exact this
                · rw [upd_marked_other h tg x hxtg] at hm1
                  exact .inl hm1
              · refine .inr ?_
                intro cr hcr2
                refine (handled_congr h hf tg cr).mp ?_
                apply hcr
                rw [childRefs_upd_marked h tg x]
                exact hcr2
          · rw [if_neg hun] at heq
            by_cases hbn : isBinaryTag ((upd h tg
                { h tg with marked := true }) tg).t = true
            · rw [if_pos hbn] at heq
              obtain ⟨⟨hch, hstk⟩, hC1⟩ := ih _ _ _ hf hndf1 hminv1 heq
              have hpf := congrArg Prod.fst heq
              have hfm : (hf tg).marked = true := by
                have hmono := (markGo_mono f
                  ((upd h tg { h tg with marked := true }) tg).l
                  (upd h tg { h tg with marked := true })
                  (((upd h tg { h tg with marked := true }) tg).r :: stk)
                  tg).2.2.2 hmktg
                rw [hpf] at hmono
                exact hmono
              refine ⟨⟨hBofMark hfm, ?_⟩, ?_⟩
              · intro e he
                refine (handled_congr h hf tg e).mp ?_
                exact hstk e (List.mem_cons_of_mem _ he)
              · intro x hx
                rcases hC1 x hx with hm1 | hcr
                · by_cases hxtg : x = tg
                  · subst hxtg
                    by_cases hmh : (h x).marked = true
                    · exact .inl hmh
                    · refine .inr ?_
                      rw [childRefs_of_binary (h x)
                        (by rw [← hfld.1]; exact hbn)]
                      intro cr hcr2
                      simp only [List.mem_cons, List.not_mem_nil,
                        or_false] at hcr2
                      rcases hcr2 with hcr2 | hcr2
                      · subst hcr2
                        have := (handled_congr h hf x _).mp hch
                        rw [hfld.2.1] at this
                        exact this
                      · subst hcr2
                        have := (handled_congr h hf x _).mp
                          (hstk _ (List.mem_cons_self _ _))
                        rw [hfld.2.2] at this
                        exact this
                  · rw [upd_marked_other h tg x hxtg] at hm1
                    exact .inl hm1
                · refine .inr ?_
                  intro cr hcr2
                  refine (handled_congr h hf tg cr).mp ?_
                  apply hcr
                  rw [childRefs_upd_marked h tg x]
                  exact hcr2
            · rw [if_neg hbn] at heq
              have hleaf : childRefs (h tg) = [] := by
                refine childRefs_of_leaf (h tg) ?_ ?_
                · rw [← hfld.1]; exact Bool.not_eq_true _ |>.mp hun
                · rw [← hfld.1]; exact Bool.not_eq_true _ |>.mp hbn
              cases stk with
              | nil =>
                have h1 := congrArg Prod.fst heq
                simp at h1
                subst h1
                refine ⟨⟨hBofMark hmktg, fun e he => by cases he⟩, ?_⟩
                intro x hx
                by_cases hxtg : x = tg
                · subst hxtg
                  by_cases hmh : (h x).marked = true
                  · exact .inl hmh
                  · refine .inr ?_
                    rw [hleaf]
                    intro cr hcr2
                    cases hcr2
                · rw [upd_marked_other h tg x hxtg] at hx
                  exact .inl hx
              | cons c2 rest =>
                obtain ⟨⟨hc2, hrest⟩, hC1⟩ := ih c2 _ rest hf hndf1
                  hminv1 heq
                have hpf := congrArg Prod.fst heq
                have hfm : (hf tg).marked = true := by
                  have hmono := (markGo_mono f c2
                    (upd h tg { h tg with marked := true }) rest tg).2.2.2
                    hmktg
                  rw [hpf] at hmono
                  exact hmono
                refine ⟨⟨hBofMark hfm, ?_⟩, ?_⟩
                · intro e he
                  cases he with
                  | head => exact (handled_congr h hf tg c2).mp hc2
                  | tail _ hm =>
                    exact (handled_congr h hf tg e).mp (hrest e hm)
                · intro x hx
                  rcases hC1 x hx with hm1 | hcr
                  · by_cases hxtg : x = tg
                    · subst hxtg
                      by_cases hmh : (h x).marked = true
                      · exact .inl hmh
                      · refine .inr ?_
                        rw [hleaf]
                        intro cr hcr2
                        cases hcr2
                    · rw [upd_marked_other h tg x hxtg] at hm1
                      exact .inl hm1
                  · refine .inr ?_
                    intro cr hcr2
                    refine (handled_congr h hf tg cr).mp ?_
                    apply hcr
                    rw [childRefs_upd_marked h tg x]
                    exact hcr2

theorem markGo_c7_loop : ∀ (fuel : Nat) (h : Nat → GCell)
    (stk : List (Option Nat)),
    (h 0).t = .COPIED → (h 0).l = some 1 → (h 0).marked = false →
    (h 1).t = .K1 → (h 1).l = some 0 →
    (markGo fuel (some 0) h stk).2 = some .outOfFuel := by
  intro fuel
  induction fuel with
  | zero => intro h stk _ _ _ _ _; rfl
  | succ f ih =>
    intro h stk h0t h0l h0m h1t h1l
    unfold markGo
    rw [if_neg (by rw [h0m]; exact Bool.false_ne_true)]
    have htg : targetOf h 0 = some 1 := by
      unfold targetOf
      rw [if_pos h0t, h0l]
    rw [htg]
    dsimp only
    have hf1 := upd_marked_fields h 1 1
    have hf0 := upd_marked_fields h 1 0
    rw [if_pos (show isUnaryTag ((upd h 1
      { h 1 with marked := true }) 1).t = true by rw [hf1.1, h1t]; rfl)]
    rw [show ((upd h 1 { h 1 with marked := true }) 1).l = some 0 from by
      rw [hf1.2.1]; exact h1l]
    exact ih (upd h 1 { h 1 with marked := true }) stk
      (by rw [hf0.1]; exact h0t)
      (by rw [hf0.2.1]; exact h0l)
      (by rw [upd_marked_other h 1 0 (by omega)]; exact h0m)
      (by rw [hf1.1]; exact h1t)
      (by rw [hf1.2.1]; exact h1l)

theorem mark_c7 (fuel : Nat) :
    (mark fuel c7Heap [some 0]).2 = some .outOfFuel := by
  cases fuel with
  | zero => rfl
  | succ f =>
    show (markGo f (some 0) c7Heap []).2 = some GCErr.outOfFuel
    exact markGo_c7_loop f c7Heap [] rfl rfl rfl rfl rfl

/-- C7: counterexample.  The spec asserts the mark phase terminates for
every finite heap graph, "including graphs that contain COPIED
forwarding cells".  It does not: `mark` tests the `marked` bit on the
*pre-forwarding* cell (line 129) and sets it only on the forwarding
*target* (line 133), so a `COPIED` cell whose target's child points back
at the `COPIED` cell is revisited forever — on the two-cell heap
`c7Heap` (cell 0: COPIED forwarding to cell 1; cell 1: K1 with l = cell
0), `mark` runs out of any amount of fuel and never returns. -/
theorem claim_C7_counterexample :
    ¬ ∃ fuel hf, mark fuel c7Heap [some 0] = (hf, none) := by
  rintro ⟨fuel, hf, heq⟩
  have h2 := mark_c7 fuel
  rw [heq] at h2
  simp at h2

/-- C7 (amended): if the heap admits a rank function — every COPIED cell
forwards in one hop to a non-COPIED cell of equal rank and child
references strictly decrease rank (finite acyclic graphs through
forwardings, covering shared DAG substructure and continuation chains of
arbitrary depth) — and all mark bits start clear, then the mark phase
terminates for every root array: some fuel suffices, and on return every
cell reachable from the roots (following COPIED forwardings to their
targets) has marked = true. -/
theorem claim_C7 (h : Nat → GCell) (roots : List (Option Nat))
    (rank : Nat → Nat) (hwf : WFr h rank)
    (hclear : ∀ x, (h x).marked = false) :
    ∃ fuel hf, mark fuel h roots = (hf, none) ∧
      ∀ t, Marks h roots t → (hf t).marked = true := by
  have hndf : NDF h := by
    intro a hcop b hb
    obtain ⟨b2, hb2, hb3, _⟩ := (hwf a).1 hcop
    rw [hb] at hb2
    injection hb2 with he
    subst he
    exact hb3
  have hminv : MInv h := by
    intro a ha
    rw [hclear a] at ha
    cases ha
  refine ⟨MOf rank (none :: roots.reverse) + 1,
    (markGo (MOf rank (none :: roots.reverse) + 1) none h roots.reverse).1,
    ?_, ?_⟩
  · have hterm := markGo_term (MOf rank (none :: roots.reverse) + 1) none h
      roots.reverse rank hwf (by omega)
    unfold mark
    rw [← hterm]
  · have hterm := markGo_term (MOf rank (none :: roots.reverse) + 1) none h
      roots.reverse rank hwf (by omega)
    have heq : markGo (MOf rank (none :: roots.reverse) + 1) none h
        roots.reverse = ((markGo (MOf rank (none :: roots.reverse) + 1)
          none h roots.reverse).1, none) := by
      rw [← hterm]
    obtain ⟨⟨_, hstk⟩, hC⟩ := markGo_complete
      (MOf rank (none :: roots.reverse) + 1) none h roots.reverse _
      hndf hminv heq
    intro t hM
    induction hM with
    | root a tg hmem htg =>
      exact hstk (some a) (List.mem_reverse.mpr hmem) a tg rfl htg
    | child tg a tg2 hM2 hmem htg2 ih =>
      rcases hC tg ih with hmk | hcr
      · rw [hclear tg] at hmk
        cases hmk
      · exact hcr (some a) hmem a tg2 rfl htg2

theorem claim_C7_witness :
    (WFr c7WitHeap (fun _ => 0) ∧ ∀ x, (c7WitHeap x).marked = false) ∧
      ∃ fuel hf, mark fuel c7WitHeap [some 0] = (hf, none) ∧
        ∀ t, Marks c7WitHeap [some 0] t → (hf t).marked = true := by
  have hwf : WFr c7WitHeap (fun _ => 0) := by
    intro a
    constructor
    · intro hcop
      simp [c7WitHeap, dfltG] at hcop
    · intro _ b hb
      simp [c7WitHeap, dfltG, childRefs, isUnaryTag, isBinaryTag] at hb
  have hclear : ∀ x, (c7WitHeap x).marked = false := fun _ => rfl
  exact ⟨⟨hwf, hclear⟩, claim_C7 c7WitHeap [some 0] (fun _ => 0) hwf hclear⟩

end Unl
